import Mathlib

/-!  Verification of the scoped OS-resource guard subsystem of `rustvil`:
advisory file locking (`src/fs/path_ext.rs`), signal-disposition guards
(`src/signals/mod.rs`) and process replacement (`src/os/command_ext.rs`),
as a shallow embedding over explicit OS states.  -/

namespace Rustvil

/-- Decidable equality for `Except`, needed to evaluate concrete states. -/
instance {ε α : Type} [DecidableEq ε] [DecidableEq α] : DecidableEq (Except ε α) :=
  fun x y =>
    match x, y with
    | .ok a, .ok b =>
      if h : a = b then isTrue (by rw [h])
      else isFalse (by intro he; cases he; exact h rfl)
    | .error a, .error b =>
      if h : a = b then isTrue (by rw [h])
      else isFalse (by intro he; cases he; exact h rfl)
    | .ok _, .error _ => isFalse (by intro he; cases he)
    | .error _, .ok _ => isFalse (by intro he; cases he)

/-! ## Filesystem model (src/fs/path_ext.rs)

A path is its list of components with the **last component first**, so
`Path::parent` is `List.tail?`-like and recursion over parents is
structural.  The OS state records existing directories, existing files
with their permission mode, the advisory-lock table (locks held by other
holders), and a trace of the advisory-lock requests issued, newest first. -/

/-- A filesystem path: components, last component first; `[]` is the empty
path (which, like `Path::new("")`, always "exists" as the root/cwd). -/
abbrev FPath := List String

/-- `Path::parent`: `none` for the empty path, otherwise drop the last
component. -/
def parent : FPath → Option FPath
  | [] => none
  | _ :: q => some q

/-- `std::io::ErrorKind`, restricted to the kinds this code can produce or
inspect. -/
inductive IoErrorKind
  | alreadyExists
  | notFound
  | notADirectory
  | isADirectory
  | wouldBlock
  | other
deriving DecidableEq, Repr

/-- Mode of an OS advisory file lock (`File::lock` takes exclusive,
`File::lock_shared` takes shared). -/
inductive LockMode
  | exclusive
  | shared
deriving DecidableEq, Repr

/-- `rustvil::fs::ShouldBlock`. -/
inductive ShouldBlock
  | No
  | Yes
deriving DecidableEq, Repr

/-- `rustvil::fs::MkdirOptions`. -/
inductive MkdirOptions
  | WithoutParents
  | WithParents
deriving DecidableEq, Repr

/-- OS-boundary trace event: an advisory-lock request issued for a path in
a given mode. -/
inductive FsEvent
  | lockReq (p : FPath) (m : LockMode)
deriving DecidableEq, Repr

/-- Explicit filesystem/OS state. -/
structure FSState where
  dirs : List FPath
  files : List (FPath × Nat)
  locks : List (FPath × LockMode)
  events : List FsEvent
deriving DecidableEq, Repr

/-- Permission mode of the file at `p`, if a file exists there. -/
def findMode : List (FPath × Nat) → FPath → Option Nat
  | [], _ => none
  | (q, m) :: rest, p => if p = q then some m else findMode rest p

/-- Whether `p` exists as a directory (the empty path always does). -/
def isDirL (ds : List FPath) (p : FPath) : Bool :=
  decide (p = [] ∨ p ∈ ds)

/-- Whether every component prefix of `p` (including `p` itself) exists as
a directory, i.e. `p` resolves to an existing directory chain. -/
def allDirsL (ds : List FPath) : FPath → Bool
  | [] => true
  | p@(_ :: q) => isDirL ds p && allDirsL ds q

/-- Whether some component prefix of `p` (including `p` itself) exists as
a regular file, which makes path resolution through `p` fail `ENOTDIR`. -/
def hFA (fls : List (FPath × Nat)) : FPath → Bool
  | [] => false
  | p@(_ :: q) => (findMode fls p).isSome || hFA fls q

/-- `fs::metadata(p)` reduced to the permission mode: the file mode if a
file is at `p`, a nominal directory mode if a directory is, else absent. -/
def metadataMode (fs : FSState) (p : FPath) : Option Nat :=
  match findMode fs.files p with
  | some m => some m
  | none => if isDirL fs.dirs p then some 0o777 else none

/-- The `mkdir(2)` call underlying `std::fs::create_dir`: `ENOTDIR` when a
file blocks the parent chain, `ENOENT` when a parent is missing, `EEXIST`
when the target exists, else create the directory. -/
def mkdirSys (fs : FSState) : FPath → Except IoErrorKind Unit × FSState
  | [] => (.error .notFound, fs)
  | p@(_ :: q) =>
    if hFA fs.files q then (.error .notADirectory, fs)
    else if allDirsL fs.dirs q then
      if isDirL fs.dirs p || (findMode fs.files p).isSome then
        (.error .alreadyExists, fs)
      else (.ok (), { fs with dirs := p :: fs.dirs })
    else (.error .notFound, fs)

/-- `std::fs::create_dir`. -/
def create_dir (fs : FSState) (p : FPath) : Except IoErrorKind Unit × FSState :=
  mkdirSys fs p

/-- `std::fs::create_dir_all`, following the std recursion: the empty path
succeeds; else try `mkdir`, recurse into the parent on `NotFound`, treat
an error on an existing directory as success. -/
def create_dir_all (fs : FSState) : FPath → Except IoErrorKind Unit × FSState
  | [] => (.ok (), fs)
  | p@(_ :: q) =>
    match mkdirSys fs p with
    | (.ok _, fs') => (.ok (), fs')
    | (.error e, fs') =>
      if e = .notFound then
        match create_dir_all fs' q with
        | (.error e2, fs2) => (.error e2, fs2)
        | (.ok _, fs2) =>
          match mkdirSys fs2 p with
          | (.ok _, fs3) => (.ok (), fs3)
          | (.error e3, fs3) =>
            if isDirL fs3.dirs p then (.ok (), fs3) else (.error e3, fs3)
      else
        if isDirL fs'.dirs p then (.ok (), fs') else (.error e, fs')

/-- The underlying directory-creation call selected by `MkdirOptions`
inside `PathExt::mkdir`. -/
def underlyingCreate (opts : MkdirOptions) (fs : FSState) (p : FPath) :
    Except IoErrorKind Unit × FSState :=
  match opts with
  | .WithoutParents => create_dir fs p
  | .WithParents => create_dir_all fs p

namespace PathExt

/-- `PathExt::mkdir`: run the selected creation call and treat an
`AlreadyExists` error as success. -/
def mkdir (fs : FSState) (p : FPath) (opts : MkdirOptions) :
    Except IoErrorKind Unit × FSState :=
  match underlyingCreate opts fs p with
  | (.error e, fs') =>
    if e = .alreadyExists then (.ok (), fs') else (.error e, fs')
  | other => other

end PathExt

/-- An open file handle, identified by the path it was opened at. -/
structure File where
  fpath : FPath
deriving DecidableEq, Repr

/-- `OpenOptions::new().read(true).write(true).create(true).truncate(false)
.mode(cmode).open(p)`: fails `EISDIR` on a directory, opens an existing
file unchanged, otherwise creates the file with mode `cmode` provided the
parent chain resolves to directories. -/
def openRW (fs : FSState) (p : FPath) (cmode : Nat) :
    Except IoErrorKind File × FSState :=
  if isDirL fs.dirs p then (.error .isADirectory, fs)
  else
    match findMode fs.files p with
    | some _ => (.ok ⟨p⟩, fs)
    | none =>
      match parent p with
      | none => (.error .notFound, fs)
      | some q =>
        if hFA fs.files q then (.error .notADirectory, fs)
        else if allDirsL fs.dirs q then
          (.ok ⟨p⟩, { fs with files := (p, cmode) :: fs.files })
        else (.error .notFound, fs)

namespace PathExt

/-- `PathExt::touch`: `mkdir -p` the parent, then open read/write with
create; the create mode is the existing metadata mode masked with `0o666`
when metadata is available, else the default `0o666`. -/
def touch (fs : FSState) (p : FPath) : Except IoErrorKind File × FSState :=
  match
    (match parent p with
     | some par => PathExt.mkdir fs par MkdirOptions.WithParents
     | none => (Except.ok (), fs)) with
  | (.error e, fs') => (.error e, fs')
  | (.ok _, fs') =>
    let cmode : Nat :=
      match metadataMode fs' p with
      | some m => Nat.land m 0o666
      | none => 0o666
    openRW fs' p cmode

end PathExt

/-- Append an OS-boundary event to the trace. -/
def pushEv (fs : FSState) (ev : FsEvent) : FSState :=
  { fs with events := ev :: fs.events }

/-- Register a held advisory lock in the OS lock table. -/
def addLock (fs : FSState) (p : FPath) (m : LockMode) : FSState :=
  { fs with locks := (p, m) :: fs.locks }

/-- Two lock modes are compatible only when both are shared. -/
def LockMode.compat : LockMode → LockMode → Bool
  | .shared, .shared => true
  | _, _ => false

/-- Whether the lock table holds a lock on `p` incompatible with a new
request in mode `m`. -/
def heldIncompatL : List (FPath × LockMode) → FPath → LockMode → Bool
  | [], _, _ => false
  | (q, held) :: rest, p, m =>
    if p = q then
      if LockMode.compat held m then heldIncompatL rest p m else true
    else heldIncompatL rest p m

/-- Whether the lock on `p` is held incompatibly by another holder. -/
def heldIncompat (fs : FSState) (p : FPath) (m : LockMode) : Bool :=
  heldIncompatL fs.locks p m

/-- `std::fs::TryLockError`: either a genuine I/O error or contention. -/
inductive TryLockErr
  | errorKind (e : IoErrorKind)
  | wouldBlock
deriving DecidableEq, Repr

/-- `File::try_lock` / `File::try_lock_shared`: record the lock request,
then fail with `TryLockError::WouldBlock` on contention or register the
lock. -/
def tryLockFile (fs : FSState) (f : File) (m : LockMode) :
    Except TryLockErr Unit × FSState :=
  let fs' := pushEv fs (.lockReq f.fpath m)
  if heldIncompat fs' f.fpath m then (.error .wouldBlock, fs')
  else (.ok (), addLock fs' f.fpath m)

/-- `File::lock` / `File::lock_shared`: record the lock request, then
either register the lock or suspend the calling thread (modelled as
`none`) until the holder releases. -/
def blockLockFile (fs : FSState) (f : File) (m : LockMode) : Option FSState :=
  let fs' := pushEv fs (.lockReq f.fpath m)
  if heldIncompat fs' f.fpath m then none
  else some (addLock fs' f.fpath m)

/-- `rustvil::fs::FileLockGuard`: owns the locked open file. -/
structure FileLockGuard where
  file : File
deriving DecidableEq, Repr

/-- Outcome of a lock acquisition call: success with a guard, an error
returned to the caller, or the calling thread suspended (blocking mode
under contention). -/
inductive LockOutcome
  | ok (g : FileLockGuard) (fs : FSState)
  | err (e : IoErrorKind) (fs : FSState)
  | blocked
deriving DecidableEq, Repr

/-- The error kind carried by an `err` outcome. -/
def LockOutcome.errKind : LockOutcome → Option IoErrorKind
  | .err e _ => some e
  | _ => none

/-- The event trace of a non-suspended outcome. -/
def LockOutcome.eventsO : LockOutcome → Option (List FsEvent)
  | .ok _ fs => some fs.events
  | .err _ fs => some fs.events
  | .blocked => none

namespace PathExt

/-- `PathExt::lock`: provision the path with `touch`, then take the
exclusive OS lock on the resulting handle, mapping
`TryLockError::WouldBlock` to an `io::Error` of kind `WouldBlock` in the
non-blocking case. -/
def lock (fs : FSState) (p : FPath) (should_block : ShouldBlock) : LockOutcome :=
  match PathExt.touch fs p with
  | (.error e, fs') => .err e fs'
  | (.ok file, fs') =>
    match should_block with
    | .Yes =>
      match blockLockFile fs' file .exclusive with
      | some fs2 => .ok ⟨file⟩ fs2
      | none => .blocked
    | .No =>
      match tryLockFile fs' file .exclusive with
      | (.ok _, fs2) => .ok ⟨file⟩ fs2
      | (.error (.errorKind e), fs2) => .err e fs2
      | (.error .wouldBlock, fs2) => .err .wouldBlock fs2

/-- `PathExt::lock_shared`: like `lock` but takes the shared OS lock. -/
def lock_shared (fs : FSState) (p : FPath) (should_block : ShouldBlock) :
    LockOutcome :=
  match PathExt.touch fs p with
  | (.error e, fs') => .err e fs'
  | (.ok file, fs') =>
    match should_block with
    | .Yes =>
      match blockLockFile fs' file .shared with
      | some fs2 => .ok ⟨file⟩ fs2
      | none => .blocked
    | .No =>
      match tryLockFile fs' file .shared with
      | (.ok _, fs2) => .ok ⟨file⟩ fs2
      | (.error (.errorKind e), fs2) => .err e fs2
      | (.error .wouldBlock, fs2) => .err .wouldBlock fs2

end PathExt

/-! ## Signal model (src/signals/mod.rs) -/

/-- A signal disposition (`libc::sighandler_t` value): default action,
ignore, or a custom handler function pointer. -/
inductive Handler
  | dfl
  | ign
  | custom (n : Nat)
deriving DecidableEq, Repr

/-- `rustvil::signals::SignalKind`: wrapper around a raw `libc::c_int`
signal number. -/
structure SignalKind where
  raw : Int
deriving DecidableEq, Repr

/-- `SignalKind::as_raw`. -/
def SignalKind.as_raw (k : SignalKind) : Int := k.raw

/-- `From<libc::c_int> for SignalKind`: wraps the given integer directly,
with no validation. -/
def SignalKind.fromRaw (n : Int) : SignalKind := ⟨n⟩

/-- Wrapper around `libc::SIGABRT`. -/
def SignalKind.abort : SignalKind := ⟨6⟩

/-- Wrapper around `libc::SIGFPE`. -/
def SignalKind.fpe : SignalKind := ⟨8⟩

/-- Wrapper around `libc::SIGINT`. -/
def SignalKind.int : SignalKind := ⟨2⟩

/-- Wrapper around `libc::SIGILL`. -/
def SignalKind.invalid : SignalKind := ⟨4⟩

/-- Wrapper around `libc::SIGSEGV`. -/
def SignalKind.segv : SignalKind := ⟨11⟩

/-- Wrapper around `libc::SIGTERM`. -/
def SignalKind.term : SignalKind := ⟨15⟩

/-- Wrapper around `libc::SIGALRM`. -/
def SignalKind.alarm : SignalKind := ⟨14⟩

/-- Wrapper around `libc::SIGBUS`. -/
def SignalKind.bus : SignalKind := ⟨7⟩

/-- Wrapper around `libc::SIGCHLD`. -/
def SignalKind.child : SignalKind := ⟨17⟩

/-- Wrapper around `libc::SIGCONT` (`r#continue` in the source). -/
def SignalKind.cont : SignalKind := ⟨18⟩

/-- Wrapper around `libc::SIGHUP`. -/
def SignalKind.hangup : SignalKind := ⟨1⟩

/-- Wrapper around `libc::SIGKILL`. -/
def SignalKind.kill : SignalKind := ⟨9⟩

/-- Wrapper around `libc::SIGPIPE`. -/
def SignalKind.pipe : SignalKind := ⟨13⟩

/-- Wrapper around `libc::SIGQUIT`. -/
def SignalKind.quit : SignalKind := ⟨3⟩

/-- Wrapper around `libc::SIGSTOP`. -/
def SignalKind.stop : SignalKind := ⟨19⟩

/-- Wrapper around `libc::SIGTSTP`. -/
def SignalKind.terminal_stop : SignalKind := ⟨20⟩

/-- Wrapper around `libc::SIGTTIN`. -/
def SignalKind.tty_in : SignalKind := ⟨21⟩

/-- Wrapper around `libc::SIGTTOU`. -/
def SignalKind.tty_out : SignalKind := ⟨22⟩

/-- Wrapper around `libc::SIGUSR1`. -/
def SignalKind.user1 : SignalKind := ⟨10⟩

/-- Wrapper around `libc::SIGUSR2`. -/
def SignalKind.user2 : SignalKind := ⟨12⟩

/-- Wrapper around `libc::SIGSYS`. -/
def SignalKind.sys : SignalKind := ⟨31⟩

/-- Wrapper around `libc::SIGTRAP`. -/
def SignalKind.trap : SignalKind := ⟨5⟩

/-- Wrapper around `libc::SIGURG`. -/
def SignalKind.urgent : SignalKind := ⟨23⟩

/-- Wrapper around `libc::SIGVTALRM`. -/
def SignalKind.virtual_alarm : SignalKind := ⟨26⟩

/-- Wrapper around `libc::SIGXCPU`. -/
def SignalKind.xcpu : SignalKind := ⟨24⟩

/-- Wrapper around `libc::SIGXFSZ`. -/
def SignalKind.xfsz : SignalKind := ⟨25⟩

/-- The fixed set of `SignalKind` values offered by named constructors
(signal numbers of the Linux platform the crate targets). -/
def namedSignals : List SignalKind :=
  [SignalKind.abort, SignalKind.fpe, SignalKind.int, SignalKind.invalid,
   SignalKind.segv, SignalKind.term, SignalKind.alarm, SignalKind.bus,
   SignalKind.child, SignalKind.cont, SignalKind.hangup, SignalKind.kill,
   SignalKind.pipe, SignalKind.quit, SignalKind.stop,
   SignalKind.terminal_stop, SignalKind.tty_in, SignalKind.tty_out,
   SignalKind.user1, SignalKind.user2, SignalKind.sys, SignalKind.trap,
   SignalKind.urgent, SignalKind.virtual_alarm, SignalKind.xcpu,
   SignalKind.xfsz]

/-- State of the process-global signal-disposition table: the current
dispositions (newest entry shadows older ones; absent means default), the
set of signal numbers the platform refuses to change, and a log of every
`libc::signal` installation attempt, newest first. -/
structure SigSys where
  table : List (Int × Handler)
  refused : List Int
  installs : List (Int × Handler)
deriving DecidableEq, Repr

/-- Current disposition of signal `n` (default action when unset). -/
def getH : List (Int × Handler) → Int → Handler
  | [], _ => .dfl
  | (k, h) :: rest, n => if n = k then h else getH rest n

/-- `libc::signal(n, h)`: atomically install disposition `h` for signal
`n` and return the previous disposition, or the `SIG_ERR` sentinel
(modelled as `none`) when the platform refuses the change. -/
def sigInstall (sys : SigSys) (n : Int) (h : Handler) : Option Handler × SigSys :=
  let logged : SigSys := { sys with installs := (n, h) :: sys.installs }
  if n ∈ sys.refused then (none, logged)
  else (some (getH sys.table n), { logged with table := (n, h) :: logged.table })

/-- `rustvil::signals::SignalGuard`: the stashed previous dispositions,
one per signal (`HashMap<SignalKind, sighandler_t>` as an association
list with distinct keys). -/
structure SignalGuard where
  stashed_signals : List (SignalKind × Handler)
deriving DecidableEq, Repr

/-- Remove every entry with the given key. -/
def removeKey : List (SignalKind × Handler) → SignalKind → List (SignalKind × Handler)
  | [], _ => []
  | (k, v) :: rest, s =>
    if k = s then removeKey rest s else (k, v) :: removeKey rest s

/-- `HashMap::insert`: replace any previous entry for the key. -/
def insertReplace (m : List (SignalKind × Handler)) (s : SignalKind)
    (h : Handler) : List (SignalKind × Handler) :=
  (s, h) :: removeKey m s

namespace SignalGuard

/-- The loop body of `SignalGuard::new_impl_with_fallback`: install the
chosen new disposition for each signal in turn, stashing the previous
disposition the OS reports; abort with `none` as soon as one
installation is refused, keeping the state already reached. -/
def newImplGo (getFor : SignalKind → Handler) :
    List SignalKind → List (SignalKind × Handler) → SigSys →
    Option SignalGuard × SigSys
  | [], stash, sys => (some ⟨stash⟩, sys)
  | s :: rest, stash, sys =>
    match sigInstall sys s.as_raw (getFor s) with
    | (none, sys') => (none, sys')
    | (some old, sys') => newImplGo getFor rest (insertReplace stash s old) sys'

/-- `SignalGuard::new_impl_with_fallback`: the new disposition for a
signal is looked up in `keys` when given, else the fallback. -/
def new_impl_with_fallback (signals : List SignalKind)
    (keys : Option (List (SignalKind × Handler))) (fallback : Handler)
    (sys : SigSys) : Option SignalGuard × SigSys :=
  newImplGo
    (fun kind =>
      match keys with
      | none => fallback
      | some ks => (ks.lookup kind).getD fallback)
    signals [] sys

/-- `SignalGuard::ignore`: swap every requested signal to `SIG_IGN`. -/
def ignore (signals : List SignalKind) (sys : SigSys) :
    Option SignalGuard × SigSys :=
  new_impl_with_fallback signals none Handler.ign sys

/-- `SignalGuard::default`: swap every requested signal to `SIG_DFL`. -/
def default (signals : List SignalKind) (sys : SigSys) :
    Option SignalGuard × SigSys :=
  new_impl_with_fallback signals none Handler.dfl sys

end SignalGuard

/-- The loop of `SignalGuard::drop`: reinstall each stashed disposition
through `libc::signal`, discarding the result of every call. -/
def restoreAll : List (SignalKind × Handler) → SigSys → SigSys
  | [], sys => sys
  | (k, v) :: rest, sys => restoreAll rest (sigInstall sys k.as_raw v).2

/-- `Drop for SignalGuard`: best-effort reinstallation of every stashed
disposition; failures of individual `libc::signal` calls are discarded
(the function is total and returns the resulting table regardless). -/
def SignalGuard.drop (g : SignalGuard) (sys : SigSys) : SigSys :=
  restoreAll g.stashed_signals sys

/-- Raw signal numbers of a stash are pairwise distinct. -/
def rawsNodup (m : List (SignalKind × Handler)) : Prop :=
  (m.map (fun e => e.1.as_raw)).Nodup

/-- Raw signal numbers of a signal list are pairwise distinct. -/
def rawsNodupSK (sigs : List SignalKind) : Prop :=
  (sigs.map SignalKind.as_raw).Nodup

/-! ## Process replacement model (src/os/command_ext.rs) -/

/-- OS-boundary trace events of the emulated `exec_replace`. -/
inductive PEv
  | ctrlAttempt
  | spawnAttempt
  | waitAttempt
deriving DecidableEq, Repr

/-- Outcome of `exec_replace`: the function returned an error to the
caller, the current process terminated with an exit status, or the
process image was genuinely replaced (unix `exec`). -/
inductive ExecOutcome
  | returned (e : IoErrorKind)
  | exited (code : Int)
  | replaced
deriving DecidableEq, Repr

/-- OS behaviour relevant to one emulated `exec_replace` call: whether
installing the interrupt-suppressing handler succeeds, the result of
spawning the command as a child, and the result of waiting for it (the
child's exit code, absent when the child has no exit code). -/
structure ProcSys where
  ctrlOk : Bool
  spawn : Except IoErrorKind Unit
  wait : Except IoErrorKind (Option Int)
deriving DecidableEq, Repr

/-- `CommandExt::exec_replace`, unix implementation: delegate to the
process-image-replacement primitive; an error is returned only when that
primitive fails. -/
def execReplaceUnix (r : Option IoErrorKind) : ExecOutcome :=
  match r with
  | some e => .returned e
  | none => .replaced

/-- `CommandExt::exec_replace`, emulated (windows) implementation:
install the interrupt-suppressing console handler, spawn the command as
a child, block until it terminates, then exit the current process with
the child's exit code, or with the fallback failure status `1` when the
child has no exit code. -/
def execReplaceEmulated (sys : ProcSys) : ExecOutcome × List PEv :=
  if sys.ctrlOk = false then (.returned IoErrorKind.other, [PEv.ctrlAttempt])
  else
    match sys.spawn with
    | .error e => (.returned e, [PEv.ctrlAttempt, PEv.spawnAttempt])
    | .ok _ =>
      match sys.wait with
      | .error e =>
        (.returned e, [PEv.ctrlAttempt, PEv.spawnAttempt, PEv.waitAttempt])
      | .ok st =>
        (.exited (st.getD 1),
         [PEv.ctrlAttempt, PEv.spawnAttempt, PEv.waitAttempt])

/-! ## Filesystem lemmas -/

theorem findMode_cons (p q : FPath) (m : Nat) (fls : List (FPath × Nat)) :
    findMode ((q, m) :: fls) p = if p = q then some m else findMode fls p := rfl

theorem isDirL_mono {ds ds2 : List FPath} (hsub : ∀ d ∈ ds, d ∈ ds2)
    {p : FPath} (h : isDirL ds p = true) : isDirL ds2 p = true := by
  unfold isDirL at h ⊢
  rcases of_decide_eq_true h with hnil | hmem
  · exact decide_eq_true (Or.inl hnil)
  · exact decide_eq_true (Or.inr (hsub p hmem))

theorem allDirsL_mono {ds ds2 : List FPath} (hsub : ∀ d ∈ ds, d ∈ ds2) :
    ∀ q : FPath, allDirsL ds q = true → allDirsL ds2 q = true := by
  intro q
  induction q with
  | nil => intro _; rfl
  | cons c r ih =>
    intro h
    simp only [allDirsL, Bool.and_eq_true] at h ⊢
    exact ⟨isDirL_mono hsub h.1, ih h.2⟩

theorem allDirsL_isDir {ds : List FPath} {c : String} {r : FPath}
    (h : allDirsL ds (c :: r) = true) :
    isDirL ds (c :: r) = true ∧ allDirsL ds r = true := by
  simpa [allDirsL, Bool.and_eq_true] using h

theorem hFA_tail {fls : List (FPath × Nat)} {c : String} {r : FPath}
    (h : hFA fls (c :: r) = false) :
    (findMode fls (c :: r)).isSome = false ∧ hFA fls r = false := by
  simpa [hFA, Bool.or_eq_false_iff] using h

theorem mkdirSys_files (fs : FSState) (p : FPath) :
    ((mkdirSys fs p).2).files = fs.files := by
  cases p with
  | nil => rfl
  | cons c q =>
    simp only [mkdirSys]
    split_ifs <;> rfl

theorem mkdirSys_locks (fs : FSState) (p : FPath) :
    ((mkdirSys fs p).2).locks = fs.locks := by
  cases p with
  | nil => rfl
  | cons c q =>
    simp only [mkdirSys]
    split_ifs <;> rfl

theorem mkdirSys_events (fs : FSState) (p : FPath) :
    ((mkdirSys fs p).2).events = fs.events := by
  cases p with
  | nil => rfl
  | cons c q =>
    simp only [mkdirSys]
    split_ifs <;> rfl

theorem mkdirSys_err_state {fs fs2 : FSState} {p : FPath} {e : IoErrorKind}
    (h : mkdirSys fs p = (.error e, fs2)) : fs2 = fs := by
  cases p with
  | nil =>
    simp only [mkdirSys, Prod.mk.injEq] at h
    exact h.2.symm
  | cons c q =>
    simp only [mkdirSys] at h
    split_ifs at h <;>
      simp only [Prod.mk.injEq] at h <;>
      first
        | exact h.2.symm
        | cases h.1

theorem mkdirSys_dirs_mono (fs : FSState) (p : FPath) :
    ∀ d ∈ fs.dirs, d ∈ ((mkdirSys fs p).2).dirs := by
  intro d hd
  cases p with
  | nil => exact hd
  | cons c q =>
    simp only [mkdirSys]
    split_ifs <;> first | exact hd | exact List.mem_cons_of_mem _ hd

theorem mkdirSys_dirs_bound (fs : FSState) (p : FPath) :
    ∀ d ∈ ((mkdirSys fs p).2).dirs, d ∈ fs.dirs ∨ d.length ≤ p.length := by
  intro d hd
  cases p with
  | nil => exact Or.inl hd
  | cons c q =>
    simp only [mkdirSys] at hd
    split_ifs at hd
    · exact Or.inl hd
    · exact Or.inl hd
    · rcases List.mem_cons.mp hd with heq | hmem
      · exact Or.inr (le_of_eq (by rw [heq]))
      · exact Or.inl hmem
    · exact Or.inl hd

theorem mkdirSys_ok_inv {fs fs2 : FSState} {c : String} {q : FPath} {u : Unit}
    (h : mkdirSys fs (c :: q) = (.ok u, fs2)) :
    hFA fs.files q = false ∧ allDirsL fs.dirs q = true ∧
    isDirL fs.dirs (c :: q) = false ∧
    (findMode fs.files (c :: q)).isSome = false ∧
    fs2 = { fs with dirs := (c :: q) :: fs.dirs } := by
  simp only [mkdirSys] at h
  split_ifs at h with h1 h2 h3
  · simp at h
  · simp at h
  · simp only [Prod.mk.injEq] at h
    simp only [Bool.or_eq_true, not_or, Bool.not_eq_true] at h3
    exact ⟨by simpa using h1, h2, h3.1, h3.2, h.2.symm⟩
  · simp at h

theorem mkdirSys_notFound_inv {fs fs2 : FSState} {c : String} {q : FPath}
    (h : mkdirSys fs (c :: q) = (.error .notFound, fs2)) :
    hFA fs.files q = false ∧ allDirsL fs.dirs q = false := by
  simp only [mkdirSys] at h
  split_ifs at h with h1 h2 h3
  · simp at h
  · simp at h
  · simp at h
  · exact ⟨by simpa using h1, by simpa using h2⟩

theorem mkdirSys_already_inv {fs fs2 : FSState} {c : String} {q : FPath}
    (h : mkdirSys fs (c :: q) = (.error .alreadyExists, fs2)) :
    hFA fs.files q = false ∧ allDirsL fs.dirs q = true ∧
    (isDirL fs.dirs (c :: q) || (findMode fs.files (c :: q)).isSome) = true := by
  simp only [mkdirSys] at h
  split_ifs at h with h1 h2 h3
  · simp at h
  · exact ⟨by simpa using h1, h2, h3⟩
  · simp at h
  · simp at h

theorem or_eq_true_cases {a b : Bool} (h : (a || b) = true) :
    a = true ∨ b = true := by
  cases a with
  | false => right; simpa using h
  | true => left; rfl

theorem mkdirSys_error_inv {fs fs2 : FSState} {c : String} {q : FPath}
    {e : IoErrorKind} (h : mkdirSys fs (c :: q) = (.error e, fs2)) :
    fs2 = fs ∧
    ((e = .notADirectory ∧ hFA fs.files q = true) ∨
     (e = .alreadyExists ∧ hFA fs.files q = false ∧
       allDirsL fs.dirs q = true ∧
       (isDirL fs.dirs (c :: q) || (findMode fs.files (c :: q)).isSome) = true) ∨
     (e = .notFound ∧ hFA fs.files q = false ∧ allDirsL fs.dirs q = false)) := by
  simp only [mkdirSys] at h
  split_ifs at h with h1 h2 h3
  · simp only [Prod.mk.injEq, Except.error.injEq] at h
    exact ⟨h.2.symm, Or.inl ⟨h.1.symm, h1⟩⟩
  · simp only [Prod.mk.injEq, Except.error.injEq] at h
    exact ⟨h.2.symm, Or.inr (Or.inl ⟨h.1.symm, by simpa using h1, h2, h3⟩)⟩
  · simp at h
  · simp only [Prod.mk.injEq, Except.error.injEq] at h
    exact ⟨h.2.symm,
      Or.inr (Or.inr ⟨h.1.symm, by simpa using h1, by simpa using h2⟩)⟩

theorem mkdirSys_exists_already {fs : FSState} {c : String} {q : FPath}
    (hq : hFA fs.files q = false) (ha : allDirsL fs.dirs q = true)
    (hex : (isDirL fs.dirs (c :: q) || (findMode fs.files (c :: q)).isSome) = true) :
    mkdirSys fs (c :: q) = (.error .alreadyExists, fs) := by
  simp [mkdirSys, hq, ha, hex]

theorem create_dir_all_state (p : FPath) : ∀ fs : FSState,
    ((create_dir_all fs p).2).files = fs.files ∧
    ((create_dir_all fs p).2).locks = fs.locks ∧
    ((create_dir_all fs p).2).events = fs.events := by
  induction p with
  | nil => intro fs; exact ⟨rfl, rfl, rfl⟩
  | cons c q ih =>
    intro fs
    simp only [create_dir_all]
    rcases hms : mkdirSys fs (c :: q) with ⟨r, fsA⟩
    have hA : fsA.files = fs.files ∧ fsA.locks = fs.locks ∧
        fsA.events = fs.events := by
      refine ⟨?_, ?_, ?_⟩ <;>
        first
          | rw [← mkdirSys_files fs (c :: q), hms]
          | rw [← mkdirSys_locks fs (c :: q), hms]
          | rw [← mkdirSys_events fs (c :: q), hms]
    cases r with
    | ok u => exact hA
    | error e =>
      dsimp only
      by_cases he : e = .notFound
      · rw [if_pos he]
        rcases hca : create_dir_all fsA q with ⟨r2, fsB⟩
        have hB : fsB.files = fsA.files ∧ fsB.locks = fsA.locks ∧
            fsB.events = fsA.events := by
          have := ih fsA
          rw [hca] at this
          exact this
        cases r2 with
        | error e2 =>
          exact ⟨hB.1.trans hA.1, hB.2.1.trans hA.2.1, hB.2.2.trans hA.2.2⟩
        | ok u2 =>
          dsimp only
          rcases hms2 : mkdirSys fsB (c :: q) with ⟨r3, fsC⟩
          have hC : fsC.files = fsB.files ∧ fsC.locks = fsB.locks ∧
              fsC.events = fsB.events := by
            refine ⟨?_, ?_, ?_⟩ <;>
              first
                | rw [← mkdirSys_files fsB (c :: q), hms2]
                | rw [← mkdirSys_locks fsB (c :: q), hms2]
                | rw [← mkdirSys_events fsB (c :: q), hms2]
          have hfin : fsC.files = fs.files ∧ fsC.locks = fs.locks ∧
              fsC.events = fs.events :=
            ⟨hC.1.trans (hB.1.trans hA.1), hC.2.1.trans (hB.2.1.trans hA.2.1),
             hC.2.2.trans (hB.2.2.trans hA.2.2)⟩
          cases r3 with
          | ok u3 => exact hfin
          | error e3 =>
            dsimp only
            split_ifs <;> exact hfin
      · rw [if_neg he]
        split_ifs <;> exact hA

theorem create_dir_all_files (fs : FSState) (p : FPath) :
    ((create_dir_all fs p).2).files = fs.files :=
  (create_dir_all_state p fs).1

theorem create_dir_all_dirs_mono (p : FPath) : ∀ (fs : FSState) (d : FPath),
    d ∈ fs.dirs → d ∈ ((create_dir_all fs p).2).dirs := by
  induction p with
  | nil => intro fs d hd; exact hd
  | cons c q ih =>
    intro fs d hd
    simp only [create_dir_all]
    rcases hms : mkdirSys fs (c :: q) with ⟨r, fsA⟩
    have hdA : d ∈ fsA.dirs := by
      have := mkdirSys_dirs_mono fs (c :: q) d hd
      rw [hms] at this
      exact this
    cases r with
    | ok u => exact hdA
    | error e =>
      dsimp only
      by_cases he : e = .notFound
      · rw [if_pos he]
        rcases hca : create_dir_all fsA q with ⟨r2, fsB⟩
        have hdB : d ∈ fsB.dirs := by
          have := ih fsA d hdA
          rw [hca] at this
          exact this
        cases r2 with
        | error e2 => exact hdB
        | ok u2 =>
          dsimp only
          rcases hms2 : mkdirSys fsB (c :: q) with ⟨r3, fsC⟩
          have hdC : d ∈ fsC.dirs := by
            have := mkdirSys_dirs_mono fsB (c :: q) d hdB
            rw [hms2] at this
            exact this
          cases r3 with
          | ok u3 => exact hdC
          | error e3 =>
            dsimp only
            split_ifs <;> exact hdC
      · rw [if_neg he]
        split_ifs <;> exact hdA

theorem create_dir_all_dirs_bound (p : FPath) : ∀ (fs : FSState) (d : FPath),
    d ∈ ((create_dir_all fs p).2).dirs →
    d ∈ fs.dirs ∨ d.length ≤ p.length := by
  induction p with
  | nil => intro fs d hd; exact Or.inl hd
  | cons c q ih =>
    intro fs d hd
    simp only [create_dir_all] at hd
    rcases hms : mkdirSys fs (c :: q) with ⟨r, fsA⟩
    rw [hms] at hd
    have boundA : ∀ x : FPath, x ∈ fsA.dirs →
        x ∈ fs.dirs ∨ x.length ≤ (c :: q).length := by
      intro x hx
      have h2 := mkdirSys_dirs_bound fs (c :: q) x
      rw [hms] at h2
      exact h2 hx
    cases r with
    | ok u => exact boundA d hd
    | error e =>
      dsimp only at hd
      by_cases he : e = .notFound
      · rw [if_pos he] at hd
        rcases hca : create_dir_all fsA q with ⟨r2, fsB⟩
        rw [hca] at hd
        have boundB : ∀ x : FPath, x ∈ fsB.dirs →
            x ∈ fs.dirs ∨ x.length ≤ (c :: q).length := by
          intro x hx
          have h2 := ih fsA x
          rw [hca] at h2
          rcases h2 hx with hin | hle
          · exact boundA x hin
          · exact Or.inr (le_trans hle (Nat.le_succ _))
        cases r2 with
        | error e2 => exact boundB d hd
        | ok u2 =>
          dsimp only at hd
          rcases hms2 : mkdirSys fsB (c :: q) with ⟨r3, fsC⟩
          rw [hms2] at hd
          have boundC : ∀ x : FPath, x ∈ fsC.dirs →
              x ∈ fs.dirs ∨ x.length ≤ (c :: q).length := by
            intro x hx
            have h2 := mkdirSys_dirs_bound fsB (c :: q) x
            rw [hms2] at h2
            rcases h2 hx with hin | hle
            · exact boundB x hin
            · exact Or.inr hle
          cases r3 with
          | ok u3 => exact boundC d hd
          | error e3 =>
            dsimp only at hd
            split_ifs at hd <;> exact boundC d hd
      · rw [if_neg he] at hd
        split_ifs at hd <;> exact boundA d hd

theorem create_dir_all_ok_of_no_file (q : FPath) : ∀ fs : FSState,
    hFA fs.files q = false →
    (create_dir_all fs q).1 = .ok () ∧
    allDirsL ((create_dir_all fs q).2).dirs q = true := by
  induction q with
  | nil => intro fs _; exact ⟨rfl, rfl⟩
  | cons c r ih =>
    intro fs h
    have hsome := (hFA_tail h).1
    have htail := (hFA_tail h).2
    simp only [create_dir_all]
    rcases hms : mkdirSys fs (c :: r) with ⟨rr, fsA⟩
    cases rr with
    | ok u =>
      rcases mkdirSys_ok_inv hms with ⟨_, hall, _, _, hA⟩
      subst hA
      constructor
      · rfl
      · simp only [allDirsL, Bool.and_eq_true]
        refine ⟨?_, ?_⟩
        · exact decide_eq_true (Or.inr (List.mem_cons_self _ _))
        · exact allDirsL_mono (fun d hd => List.mem_cons_of_mem _ hd) r hall
    | error e =>
      dsimp only
      rcases mkdirSys_error_inv hms with ⟨hAeq, hcases⟩
      rw [hAeq]
      rcases hcases with ⟨_, hnad⟩ | ⟨heq, _, hall, hor⟩ | ⟨heq, _, hnall⟩
      · rw [htail] at hnad; cases hnad
      · subst heq
        have hdir : isDirL fs.dirs (c :: r) = true := by
          rcases or_eq_true_cases hor with hd | hf
          · exact hd
          · rw [hsome] at hf; cases hf
        rw [if_neg (by decide), if_pos hdir]
        constructor
        · rfl
        · simp only [allDirsL, Bool.and_eq_true]
          exact ⟨hdir, hall⟩
      · subst heq
        rw [if_pos rfl]
        rcases hca : create_dir_all fs r with ⟨r2, fsB⟩
        have hih := ih fs htail
        rw [hca] at hih
        cases r2 with
        | error e2 => cases hih.1
        | ok u2 =>
          dsimp only
          have hBfiles : fsB.files = fs.files := by
            rw [← create_dir_all_files fs r, hca]
          rcases hms2 : mkdirSys fsB (c :: r) with ⟨r3, fsC⟩
          cases r3 with
          | ok u3 =>
            rcases mkdirSys_ok_inv hms2 with ⟨_, hallB, _, _, hC⟩
            subst hC
            constructor
            · rfl
            · simp only [allDirsL, Bool.and_eq_true]
              refine ⟨decide_eq_true (Or.inr (List.mem_cons_self _ _)), ?_⟩
              exact allDirsL_mono (fun d hd => List.mem_cons_of_mem _ hd)
                r hih.2
          | error e3 =>
            dsimp only
            rcases mkdirSys_error_inv hms2 with ⟨hCeq, hcases2⟩
            rw [hCeq]
            rcases hcases2 with ⟨_, hnad⟩ | ⟨heq3, _, _, hor⟩ | ⟨heq3, _, hnall⟩
            · rw [hBfiles, htail] at hnad; cases hnad
            · subst heq3
              have hdir : isDirL fsB.dirs (c :: r) = true := by
                rcases or_eq_true_cases hor with hd | hf
                · exact hd
                · rw [hBfiles, hsome] at hf; cases hf
              rw [if_pos hdir]
              constructor
              · rfl
              · simp only [allDirsL, Bool.and_eq_true]
                exact ⟨hdir, hih.2⟩
            · rw [hih.2] at hnall; cases hnall

theorem create_dir_all_noop {fs : FSState} {c : String} {q : FPath}
    (hd : isDirL fs.dirs (c :: q) = true) (hq : hFA fs.files q = false)
    (ha : allDirsL fs.dirs q = true) :
    create_dir_all fs (c :: q) = (.ok (), fs) := by
  have hms : mkdirSys fs (c :: q) = (.error .alreadyExists, fs) :=
    mkdirSys_exists_already hq ha (by rw [hd]; rfl)
  simp only [create_dir_all, hms]
  rw [if_neg (by decide), if_pos hd]

theorem create_dir_all_exists_file {fs : FSState} {c : String} {q : FPath}
    (hd : isDirL fs.dirs (c :: q) = false)
    (hf : (findMode fs.files (c :: q)).isSome = true)
    (hq : hFA fs.files q = false) (ha : allDirsL fs.dirs q = true) :
    create_dir_all fs (c :: q) = (.error .alreadyExists, fs) := by
  have hms : mkdirSys fs (c :: q) = (.error .alreadyExists, fs) :=
    mkdirSys_exists_already hq ha (by rw [hf, Bool.or_true])
  simp only [create_dir_all, hms]
  rw [if_neg (by decide), if_neg (by rw [hd]; exact Bool.false_ne_true)]

theorem create_dir_all_already_hFA (q : FPath) : ∀ fs fsB : FSState,
    create_dir_all fs q = (.error .alreadyExists, fsB) →
    hFA fs.files q = true := by
  induction q with
  | nil => intro fs fsB h; simp [create_dir_all] at h
  | cons c r ih =>
    intro fs fsB h
    simp only [create_dir_all] at h
    rcases hms : mkdirSys fs (c :: r) with ⟨rr, fsA⟩
    rw [hms] at h
    cases rr with
    | ok u => simp at h
    | error e =>
      dsimp only at h
      rcases mkdirSys_error_inv hms with ⟨hAeq, hinv⟩
      rw [hAeq] at h
      by_cases he : e = .notFound
      · rw [if_pos he] at h
        rcases hca : create_dir_all fs r with ⟨r2, fsB2⟩
        rw [hca] at h
        cases r2 with
        | error e2 =>
          dsimp only at h
          simp only [Prod.mk.injEq, Except.error.injEq] at h
          rw [h.1] at hca
          have := ih fs fsB2 hca
          simp [hFA, this]
        | ok u2 =>
          dsimp only at h
          rcases hms2 : mkdirSys fsB2 (c :: r) with ⟨r3, fsC⟩
          rw [hms2] at h
          cases r3 with
          | ok u3 => simp at h
          | error e3 =>
            dsimp only at h
            split_ifs at h with hdC
            · simp at h
            · simp only [Prod.mk.injEq, Except.error.injEq] at h
              rcases mkdirSys_error_inv hms2 with ⟨hCeq, hcases⟩
              rw [hCeq] at hdC
              rcases hcases with ⟨he3, _⟩ | ⟨_, _, _, hor⟩ | ⟨he3, _, _⟩
              · rw [he3] at h; cases h.1
              · have hfile : (findMode fsB2.files (c :: r)).isSome = true := by
                  rcases or_eq_true_cases hor with hdd | hff
                  · rw [hdd] at hdC; cases hdC rfl
                  · exact hff
                have hBfiles : fsB2.files = fs.files := by
                  rw [← create_dir_all_files fs r, hca]
                rw [hBfiles] at hfile
                simp [hFA, hfile]
              · rw [he3] at h; cases h.1
      · rw [if_neg he] at h
        split_ifs at h with hdA
        · simp at h
        · simp only [Prod.mk.injEq, Except.error.injEq] at h
          rcases hinv with ⟨he2, hnad⟩ | ⟨he2, _, _, hor⟩ | ⟨he2, _, _⟩
          · rw [he2] at h; cases h.1
          · have hfile : (findMode fs.files (c :: r)).isSome = true := by
              rcases or_eq_true_cases hor with hdd | hff
              · rw [hdd] at hdA; cases hdA rfl
              · exact hff
            simp [hFA, hfile]
          · exact absurd he2 he

theorem findMode_cons_ne_length {p : FPath} {m : Nat}
    {fls : List (FPath × Nat)} {s : FPath} (hne : s.length ≠ p.length) :
    findMode ((p, m) :: fls) s = findMode fls s := by
  rw [findMode_cons, if_neg (fun h => hne (by rw [h]))]

theorem hFA_cons_longer (fls : List (FPath × Nat)) (p : FPath) (m : Nat) :
    ∀ q : FPath, q.length < p.length → hFA ((p, m) :: fls) q = hFA fls q := by
  intro q
  induction q with
  | nil => intro _; rfl
  | cons c r ih =>
    intro hlt
    simp only [hFA]
    rw [findMode_cons_ne_length (Nat.ne_of_lt hlt),
      ih (Nat.lt_of_succ_lt hlt)]

theorem underlyingCreate_state (opts : MkdirOptions) (fs : FSState) (p : FPath) :
    ((underlyingCreate opts fs p).2).files = fs.files ∧
    ((underlyingCreate opts fs p).2).locks = fs.locks ∧
    ((underlyingCreate opts fs p).2).events = fs.events := by
  cases opts with
  | WithoutParents =>
    exact ⟨mkdirSys_files fs p, mkdirSys_locks fs p, mkdirSys_events fs p⟩
  | WithParents => exact create_dir_all_state p fs

theorem mkdir_snd (fs : FSState) (p : FPath) (opts : MkdirOptions) :
    (PathExt.mkdir fs p opts).2 = (underlyingCreate opts fs p).2 := by
  simp only [PathExt.mkdir]
  rcases hu : underlyingCreate opts fs p with ⟨r, fsA⟩
  cases r with
  | ok u => rfl
  | error e =>
    dsimp only
    split_ifs <;> rfl

theorem mkdir_state (fs : FSState) (p : FPath) (opts : MkdirOptions) :
    ((PathExt.mkdir fs p opts).2).files = fs.files ∧
    ((PathExt.mkdir fs p opts).2).locks = fs.locks ∧
    ((PathExt.mkdir fs p opts).2).events = fs.events := by
  rw [mkdir_snd]
  exact underlyingCreate_state opts fs p

theorem openRW_state (fs : FSState) (p : FPath) (m : Nat) :
    ((openRW fs p m).2).dirs = fs.dirs ∧
    ((openRW fs p m).2).locks = fs.locks ∧
    ((openRW fs p m).2).events = fs.events := by
  simp only [openRW]
  split_ifs with hd
  · exact ⟨rfl, rfl, rfl⟩
  · rcases hfm : findMode fs.files p with _ | m0
    · dsimp only
      rcases hp : parent p with _ | q
      · exact ⟨rfl, rfl, rfl⟩
      · dsimp only
        split_ifs <;> exact ⟨rfl, rfl, rfl⟩
    · exact ⟨rfl, rfl, rfl⟩

theorem openRW_ok_inv {fs fs2 : FSState} {f : File} {p : FPath} {m : Nat}
    (h : openRW fs p m = (.ok f, fs2)) :
    f = ⟨p⟩ ∧ isDirL fs.dirs p = false ∧
    ((∃ m0, findMode fs.files p = some m0 ∧ fs2 = fs) ∨
     (findMode fs.files p = none ∧ ∃ q, parent p = some q ∧
        hFA fs.files q = false ∧ allDirsL fs.dirs q = true ∧
        fs2 = { fs with files := (p, m) :: fs.files })) := by
  simp only [openRW] at h
  split_ifs at h with hd
  · simp at h
  · rcases hfm : findMode fs.files p with _ | m0
    · rw [hfm] at h
      dsimp only at h
      rcases hp : parent p with _ | q
      · rw [hp] at h
        simp at h
      · rw [hp] at h
        dsimp only at h
        split_ifs at h with h1 h2
        · simp at h
        · simp only [Prod.mk.injEq, Except.ok.injEq] at h
          exact ⟨h.1.symm, by simpa using hd,
            Or.inr ⟨rfl, q, rfl, by simpa using h1, h2, h.2.symm⟩⟩
        · simp at h
    · rw [hfm] at h
      simp only [Prod.mk.injEq, Except.ok.injEq] at h
      exact ⟨h.1.symm, by simpa using hd, Or.inl ⟨m0, rfl, h.2.symm⟩⟩

theorem touch_state (fs : FSState) (p : FPath) :
    ((PathExt.touch fs p).2).locks = fs.locks ∧
    ((PathExt.touch fs p).2).events = fs.events := by
  simp only [PathExt.touch]
  rcases hp : parent p with _ | q
  · dsimp only
    exact ⟨(openRW_state fs p _).2.1, (openRW_state fs p _).2.2⟩
  · dsimp only
    rcases hmk : PathExt.mkdir fs q MkdirOptions.WithParents with ⟨rm, fsP⟩
    have hP : fsP.locks = fs.locks ∧ fsP.events = fs.events := by
      have h2 := mkdir_state fs q MkdirOptions.WithParents
      rw [hmk] at h2
      exact ⟨h2.2.1, h2.2.2⟩
    cases rm with
    | error e => exact hP
    | ok u =>
      dsimp only
      exact ⟨(openRW_state fsP p _).2.1.trans hP.1,
        (openRW_state fsP p _).2.2.trans hP.2⟩

theorem touch_ok_fpath {fs fs2 : FSState} {f : File} {p : FPath}
    (h : PathExt.touch fs p = (.ok f, fs2)) : f = ⟨p⟩ := by
  simp only [PathExt.touch] at h
  rcases hp : parent p with _ | q
  · rw [hp] at h
    dsimp only at h
    exact (openRW_ok_inv h).1
  · rw [hp] at h
    dsimp only at h
    rcases hmk : PathExt.mkdir fs q MkdirOptions.WithParents with ⟨rm, fsP⟩
    rw [hmk] at h
    cases rm with
    | error e => simp at h
    | ok u =>
      dsimp only at h
      exact (openRW_ok_inv h).1

theorem mkdirSys_nAD {fs : FSState} {c : String} {q : FPath}
    (h : hFA fs.files q = true) :
    mkdirSys fs (c :: q) = (.error .notADirectory, fs) := by
  simp [mkdirSys, h]

theorem create_dir_all_noop_nAD {fs : FSState} {c : String} {q : FPath}
    (h : hFA fs.files q = true) (hd : isDirL fs.dirs (c :: q) = true) :
    create_dir_all fs (c :: q) = (.ok (), fs) := by
  simp only [create_dir_all, mkdirSys_nAD h]
  rw [if_neg (by decide), if_pos hd]

theorem cda_repeat {fs fs1 : FSState} {c : String} {q : FPath}
    (h : create_dir_all fs (c :: q) = (.ok (), fs1) ∨
         create_dir_all fs (c :: q) = (.error .alreadyExists, fs1)) :
    create_dir_all fs1 (c :: q) = (.ok (), fs1) ∨
    create_dir_all fs1 (c :: q) = (.error .alreadyExists, fs1) := by
  simp only [create_dir_all] at h
  rcases hms : mkdirSys fs (c :: q) with ⟨rr, fsA⟩
  rw [hms] at h
  cases rr with
  | ok u =>
    cases u
    dsimp only at h
    rcases h with h | h
    · simp at h
      rcases mkdirSys_ok_inv hms with ⟨hq, ha, _, _, hA⟩
      rw [hA] at h
      subst h
      left
      exact create_dir_all_noop (by simp [isDirL]) hq
        (allDirsL_mono (fun d hd => List.mem_cons_of_mem _ hd) q ha)
    · simp at h
  | error e =>
    dsimp only at h
    rcases mkdirSys_error_inv hms with ⟨hAeq, hinv⟩
    rw [hAeq] at h
    by_cases he : e = .notFound
    · subst he
      rw [if_pos rfl] at h
      have hqa : hFA fs.files q = false := by
        rcases hinv with ⟨he2, _⟩ | ⟨he2, _, _, _⟩ | ⟨_, h1, _⟩
        · exact absurd he2 (by decide)
        · exact absurd he2 (by decide)
        · exact h1
      rcases hca : create_dir_all fs q with ⟨r2, fsB⟩
      rw [hca] at h
      have hl7 := create_dir_all_ok_of_no_file q fs hqa
      rw [hca] at hl7
      have hBfiles : fsB.files = fs.files := by
        rw [← create_dir_all_files fs q, hca]
      cases r2 with
      | error e2 => simp at hl7
      | ok u2 =>
        cases u2
        dsimp only at h
        have allB : allDirsL fsB.dirs q = true := hl7.2
        have hqB : hFA fsB.files q = false := by rw [hBfiles]; exact hqa
        rcases hms2 : mkdirSys fsB (c :: q) with ⟨r3, fsC⟩
        rw [hms2] at h
        cases r3 with
        | ok u3 =>
          cases u3
          dsimp only at h
          rcases h with h | h
          · simp at h
            rcases mkdirSys_ok_inv hms2 with ⟨_, haB, _, _, hC⟩
            rw [hC] at h
            subst h
            left
            exact create_dir_all_noop (by simp [isDirL]) hqB
              (allDirsL_mono (fun d hd => List.mem_cons_of_mem _ hd) q haB)
          · simp at h
        | error e3 =>
          dsimp only at h
          rcases mkdirSys_error_inv hms2 with ⟨hCeq, hinv2⟩
          rw [hCeq] at h
          split_ifs at h with hdB
          · rcases h with h | h
            · simp at h
              subst h
              left
              exact create_dir_all_noop hdB hqB allB
            · simp at h
          · rcases h with h | h
            · simp at h
            · simp only [Prod.mk.injEq, Except.error.injEq] at h
              rcases h with ⟨he3, hfs⟩
              subst hfs
              have hfile : (findMode fsB.files (c :: q)).isSome = true := by
                rcases hinv2 with ⟨_, hnad⟩ | ⟨_, _, _, horx⟩ | ⟨_, _, hnall⟩
                · rw [hqB] at hnad; cases hnad
                · rcases or_eq_true_cases horx with hdd | hff
                  · exact absurd hdd hdB
                  · exact hff
                · rw [allB] at hnall; cases hnall
              right
              exact create_dir_all_exists_file (by simpa using hdB) hfile
                hqB allB
    · rw [if_neg he] at h
      split_ifs at h with hdA
      · rcases h with h | h
        · simp at h
          subst h
          left
          rcases hinv with ⟨_, hnadT⟩ | ⟨_, hq2, ha2, _⟩ | ⟨he2, _, _⟩
          · exact create_dir_all_noop_nAD hnadT hdA
          · exact create_dir_all_noop hdA hq2 ha2
          · exact absurd he2 he
        · simp at h
      · rcases h with h | h
        · simp at h
        · simp only [Prod.mk.injEq, Except.error.injEq] at h
          rcases h with ⟨he3, hfs⟩
          subst hfs
          rcases hinv with ⟨he2, _⟩ | ⟨_, hq2, ha2, horx⟩ | ⟨he2, _, _⟩
          · rw [he3] at he2; exact absurd he2 (by decide)
          · have hfile : (findMode fs.files (c :: q)).isSome = true := by
              rcases or_eq_true_cases horx with hdd | hff
              · exact absurd hdd hdA
              · exact hff
            right
            exact create_dir_all_exists_file (by simpa using hdA) hfile
              hq2 ha2
          · exact absurd he2 he

theorem mkdir_repeat {fs fs1 : FSState} {p : FPath} {opts : MkdirOptions}
    (h : PathExt.mkdir fs p opts = (.ok (), fs1)) :
    PathExt.mkdir fs1 p opts = (.ok (), fs1) := by
  cases opts with
  | WithoutParents =>
    cases p with
    | nil => simp [PathExt.mkdir, underlyingCreate, create_dir, mkdirSys] at h
    | cons c q =>
      simp only [PathExt.mkdir, underlyingCreate, create_dir] at h ⊢
      rcases hms : mkdirSys fs (c :: q) with ⟨r, fsA⟩
      rw [hms] at h
      cases r with
      | ok u =>
        cases u
        dsimp only at h
        simp at h
        rcases mkdirSys_ok_inv hms with ⟨hq, ha, _, _, hA⟩
        rw [hA] at h
        subst h
        have hms3 : mkdirSys { fs with dirs := (c :: q) :: fs.dirs } (c :: q)
            = (.error .alreadyExists, { fs with dirs := (c :: q) :: fs.dirs }) :=
          mkdirSys_exists_already hq
            (allDirsL_mono (fun d hd => List.mem_cons_of_mem _ hd) q ha)
            (by simp [isDirL])
        rw [hms3]
        dsimp only
        rw [if_pos rfl]
      | error e =>
        dsimp only at h
        split_ifs at h with he
        · simp at h
          rcases mkdirSys_error_inv hms with ⟨hAeq, _⟩
          rw [hAeq] at h
          subst h
          rw [hms, hAeq]
          dsimp only
          rw [if_pos he]
        · simp at h
  | WithParents =>
    cases p with
    | nil => simp [PathExt.mkdir, underlyingCreate, create_dir_all]
    | cons c q =>
      simp only [PathExt.mkdir, underlyingCreate] at h ⊢
      rcases hca : create_dir_all fs (c :: q) with ⟨r, fsA⟩
      rw [hca] at h
      cases r with
      | ok u =>
        cases u
        dsimp only at h
        simp at h
        subst h
        rcases cda_repeat (Or.inl hca) with h2 | h2
        · rw [h2]
        · rw [h2]
          dsimp only
          rw [if_pos rfl]
      | error e =>
        dsimp only at h
        split_ifs at h with he
        · simp at h
          subst h
          rw [he] at hca
          rcases cda_repeat (Or.inr hca) with h2 | h2
          · rw [h2]
          · rw [h2]
            dsimp only
            rw [if_pos rfl]
        · simp at h

theorem touch_repeat {fs fs1 : FSState} {p : FPath} {f : File}
    (h : PathExt.touch fs p = (.ok f, fs1)) :
    PathExt.touch fs1 p = (.ok f, fs1) := by
  cases p with
  | nil => simp [PathExt.touch, openRW, isDirL, parent] at h
  | cons c q =>
    simp only [PathExt.touch, parent] at h ⊢
    rcases hmk : PathExt.mkdir fs q MkdirOptions.WithParents with ⟨rm, fsP⟩
    rw [hmk] at h
    cases rm with
    | error e => simp at h
    | ok u =>
      cases u
      dsimp only at h
      rcases openRW_ok_inv h with ⟨hf, hdirF, hcase⟩
      rcases hcase with ⟨m0, hfm, hfs1⟩ | ⟨hfm, q2, hpq, hq1, hq2, hfs1⟩
      · subst hfs1
        rw [mkdir_repeat hmk]
        dsimp only
        have hmm : metadataMode fs1 (c :: q) = some m0 := by
          simp [metadataMode, hfm]
        rw [hmm]
        dsimp only
        simp only [openRW]
        rw [if_neg (by rw [hdirF]; exact Bool.false_ne_true), hfm]
        dsimp only
        rw [hf]
      · have hq2eq : q = q2 := by
          simp only [parent, Option.some.injEq] at hpq
          exact hpq
        subst hq2eq
        have hmm : metadataMode fsP (c :: q) = none := by
          simp [metadataMode, hfm, hdirF]
        rw [hmm] at hfs1
        dsimp only at hfs1
        subst hfs1
        have hmkR : PathExt.mkdir
            { fsP with files := ((c :: q), 0o666) :: fsP.files } q
            MkdirOptions.WithParents
            = (.ok (), { fsP with files := ((c :: q), 0o666) :: fsP.files }) := by
          cases q with
          | nil => simp [PathExt.mkdir, underlyingCreate, create_dir_all]
          | cons c2 r =>
            have hqR : hFA (((c :: c2 :: r), 0o666) :: fsP.files) (c2 :: r)
                = false := by
              rw [hFA_cons_longer fsP.files (c :: c2 :: r) 0o666 (c2 :: r)
                (Nat.lt_succ_self ((c2 :: r).length))]
              exact hq1
            have hnoop : create_dir_all
                { fsP with files := ((c :: c2 :: r), 0o666) :: fsP.files }
                (c2 :: r)
                = (.ok (),
                   { fsP with
                     files := ((c :: c2 :: r), 0o666) :: fsP.files }) :=
              create_dir_all_noop (allDirsL_isDir hq2).1 (hFA_tail hqR).2
                (allDirsL_isDir hq2).2
            simp only [PathExt.mkdir, underlyingCreate, hnoop]
        rw [hmkR]
        dsimp only
        have hmm2 : metadataMode
            { fsP with files := ((c :: q), 0o666) :: fsP.files } (c :: q)
            = some 0o666 := by
          simp [metadataMode, findMode_cons]
        rw [hmm2]
        dsimp only
        simp only [openRW]
        rw [if_neg (by rw [hdirF]; exact Bool.false_ne_true)]
        rw [show findMode (((c :: q), 0o666) :: fsP.files) (c :: q)
            = some 0o666 from by rw [findMode_cons, if_pos rfl]]
        dsimp only
        rw [hf]

/-! ## Signal lemmas -/

theorem SignalKind.as_raw_inj {a b : SignalKind} (h : a.as_raw = b.as_raw) :
    a = b := by
  cases a; cases b
  simpa [SignalKind.as_raw] using h

theorem sigInstall_refused (sys : SigSys) (n : Int) (h : Handler) :
    ((sigInstall sys n h).2).refused = sys.refused := by
  by_cases hr : n ∈ sys.refused <;> simp [sigInstall, hr]

theorem sigInstall_not_refused (sys : SigSys) (n : Int) (h : Handler)
    (hr : n ∉ sys.refused) :
    sigInstall sys n h =
      (some (getH sys.table n),
       { table := (n, h) :: sys.table, refused := sys.refused,
         installs := (n, h) :: sys.installs }) := by
  simp [sigInstall, hr]

theorem getH_cons (k : Int) (h : Handler) (t : List (Int × Handler)) (n : Int) :
    getH ((k, h) :: t) n = if n = k then h else getH t n := rfl

theorem restoreAll_refused (stash : List (SignalKind × Handler)) :
    ∀ sys, (restoreAll stash sys).refused = sys.refused := by
  induction stash with
  | nil => intro sys; rfl
  | cons e rest ih =>
    intro sys
    simp [restoreAll, ih, sigInstall_refused]

theorem restoreAll_getH_notin (stash : List (SignalKind × Handler)) :
    ∀ sys n, (∀ e ∈ stash, e.1.as_raw ≠ n) →
      getH (restoreAll stash sys).table n = getH sys.table n := by
  induction stash with
  | nil => intro sys n _; rfl
  | cons e rest ih =>
    intro sys n hne
    have hhd : e.1.as_raw ≠ n := hne e (List.mem_cons_self e rest)
    have htl : ∀ x ∈ rest, x.1.as_raw ≠ n := fun x hx =>
      hne x (List.mem_cons_of_mem e hx)
    show getH (restoreAll rest (sigInstall sys e.1.as_raw e.2).2).table n = _
    rw [ih _ n htl]
    by_cases hr : e.1.as_raw ∈ sys.refused
    · simp [sigInstall, hr]
    · rw [sigInstall_not_refused _ _ _ hr]
      exact (getH_cons _ _ _ _).trans (if_neg (fun hn => hhd hn.symm))

theorem restoreAll_getH_mem (stash : List (SignalKind × Handler)) :
    ∀ sys k v, rawsNodup stash → (k, v) ∈ stash → k.as_raw ∉ sys.refused →
      getH (restoreAll stash sys).table k.as_raw = v := by
  induction stash with
  | nil => intro sys k v _ hm _; cases hm
  | cons e rest ih =>
    intro sys k v hnd hm hr
    have hnd' : rawsNodup rest := (List.nodup_cons.mp hnd).2
    rcases List.mem_cons.mp hm with heq | hm'
    · subst heq
      show getH (restoreAll rest (sigInstall sys k.as_raw v).2).table k.as_raw = v
      have hrest : ∀ x ∈ rest, x.1.as_raw ≠ k.as_raw := by
        intro x hx hcontra
        have := (List.nodup_cons.mp hnd).1
        exact this (List.mem_map.mpr ⟨x, hx, hcontra⟩)
      rw [restoreAll_getH_notin rest _ _ hrest]
      simp [sigInstall, hr, getH_cons]
    · show getH (restoreAll rest (sigInstall sys e.1.as_raw e.2).2).table k.as_raw = v
      exact ih _ k v hnd' hm' (by rw [sigInstall_refused]; exact hr)

theorem removeKey_subset (m : List (SignalKind × Handler)) (s : SignalKind) :
    ∀ e ∈ removeKey m s, e ∈ m := by
  induction m with
  | nil => intro e he; cases he
  | cons x rest ih =>
    intro e he
    by_cases hx : x.1 = s
    · simp only [removeKey] at he
      rw [if_pos hx] at he
      exact List.mem_cons_of_mem x (ih e he)
    · simp only [removeKey] at he
      rw [if_neg hx] at he
      rcases List.mem_cons.mp he with h | h
      · exact h ▸ List.mem_cons_self x rest
      · exact List.mem_cons_of_mem x (ih e h)

theorem removeKey_mem (m : List (SignalKind × Handler)) (s : SignalKind) :
    ∀ e ∈ m, e.1 ≠ s → e ∈ removeKey m s := by
  induction m with
  | nil => intro e he; cases he
  | cons x rest ih =>
    intro e he hne
    rcases List.mem_cons.mp he with h | h
    · subst h
      simp only [removeKey]
      rw [if_neg hne]
      exact List.mem_cons_self e _
    · by_cases hx : x.1 = s
      · simp only [removeKey]; rw [if_pos hx]; exact ih e h hne
      · simp only [removeKey]; rw [if_neg hx]
        exact List.mem_cons_of_mem x (ih e h hne)

theorem removeKey_sublist (m : List (SignalKind × Handler)) (s : SignalKind) :
    (removeKey m s).Sublist m := by
  induction m with
  | nil => exact List.Sublist.slnil
  | cons x rest ih =>
    by_cases hx : x.1 = s
    · simp only [removeKey]; rw [if_pos hx]
      exact ih.cons x
    · simp only [removeKey]; rw [if_neg hx]
      exact ih.cons₂ x

theorem removeKey_key_ne (m : List (SignalKind × Handler)) (s : SignalKind) :
    ∀ e ∈ removeKey m s, e.1 ≠ s := by
  induction m with
  | nil => intro e he; cases he
  | cons x rest ih =>
    intro e he
    by_cases hx : x.1 = s
    · simp only [removeKey] at he; rw [if_pos hx] at he; exact ih e he
    · simp only [removeKey] at he; rw [if_neg hx] at he
      rcases List.mem_cons.mp he with h | h
      · exact h ▸ hx
      · exact ih e h

theorem rawsNodup_insertReplace (m : List (SignalKind × Handler))
    (s : SignalKind) (h : Handler) (hnd : rawsNodup m) :
    rawsNodup (insertReplace m s h) := by
  unfold rawsNodup insertReplace
  rw [List.map_cons, List.nodup_cons]
  constructor
  · intro hmem
    rcases List.mem_map.mp hmem with ⟨e, he, hraw⟩
    exact removeKey_key_ne m s e he (SignalKind.as_raw_inj hraw)
  · exact hnd.sublist ((removeKey_sublist m s).map _)

namespace SignalGuard

theorem newImplGo_refused (f : SignalKind → Handler) (sigs : List SignalKind) :
    ∀ stash sys, ((newImplGo f sigs stash sys).2).refused = sys.refused := by
  induction sigs with
  | nil => intro stash sys; rfl
  | cons s rest ih =>
    intro stash sys
    by_cases hr : s.as_raw ∈ sys.refused
    · simp [newImplGo, sigInstall, hr]
    · simp [newImplGo, sigInstall, hr, ih]

theorem newImplGo_table_notin (f : SignalKind → Handler) (sigs : List SignalKind) :
    ∀ stash sys n, (∀ s ∈ sigs, s.as_raw ≠ n) →
      getH ((newImplGo f sigs stash sys).2).table n = getH sys.table n := by
  induction sigs with
  | nil => intro stash sys n _; rfl
  | cons s rest ih =>
    intro stash sys n hne
    have hhd : s.as_raw ≠ n := hne s (List.mem_cons_self s rest)
    have htl : ∀ x ∈ rest, x.as_raw ≠ n := fun x hx =>
      hne x (List.mem_cons_of_mem s hx)
    by_cases hr : s.as_raw ∈ sys.refused
    · simp [newImplGo, sigInstall, hr]
    · simp only [newImplGo, sigInstall_not_refused sys s.as_raw (f s) hr]
      rw [ih _ _ n htl]
      exact (getH_cons _ _ _ _).trans (if_neg (fun hn => hhd hn.symm))

theorem newImplGo_installs (f : SignalKind → Handler) (sigs : List SignalKind) :
    ∀ stash sys g sys', newImplGo f sigs stash sys = (some g, sys') →
      sys'.installs.length = sys.installs.length + sigs.length := by
  induction sigs with
  | nil =>
    intro stash sys g sys' h
    simp only [newImplGo, Prod.mk.injEq] at h
    rw [← h.2]
    simp
  | cons s rest ih =>
    intro stash sys g sys' h
    by_cases hr : s.as_raw ∈ sys.refused
    · simp [newImplGo, sigInstall, hr] at h
    · simp only [newImplGo, sigInstall_not_refused sys s.as_raw (f s) hr] at h
      have := ih _ _ _ _ h
      simp only [List.length_cons] at this ⊢
      omega

theorem newImplGo_mem_stash (f : SignalKind → Handler) (sigs : List SignalKind) :
    ∀ stash sys g sys' k v, (k, v) ∈ stash → (∀ s ∈ sigs, s ≠ k) →
      newImplGo f sigs stash sys = (some g, sys') →
      (k, v) ∈ g.stashed_signals := by
  induction sigs with
  | nil =>
    intro stash sys g sys' k v hm _ h
    simp only [newImplGo, Prod.mk.injEq, Option.some.injEq] at h
    rw [← h.1]
    exact hm
  | cons s rest ih =>
    intro stash sys g sys' k v hm hne h
    by_cases hr : s.as_raw ∈ sys.refused
    · simp [newImplGo, sigInstall, hr] at h
    · simp only [newImplGo, sigInstall_not_refused sys s.as_raw (f s) hr] at h
      refine ih _ _ _ _ k v ?_ (fun x hx => hne x (List.mem_cons_of_mem s hx)) h
      exact List.mem_cons_of_mem _
        (removeKey_mem stash s (k, v) hm
          (fun hk => hne s (List.mem_cons_self s rest) hk.symm))

theorem newImplGo_stash_nodup (f : SignalKind → Handler) (sigs : List SignalKind) :
    ∀ stash sys g sys', rawsNodup stash →
      newImplGo f sigs stash sys = (some g, sys') →
      rawsNodup g.stashed_signals := by
  induction sigs with
  | nil =>
    intro stash sys g sys' hnd h
    simp only [newImplGo, Prod.mk.injEq, Option.some.injEq] at h
    rw [← h.1]
    exact hnd
  | cons s rest ih =>
    intro stash sys g sys' hnd h
    by_cases hr : s.as_raw ∈ sys.refused
    · simp [newImplGo, sigInstall, hr] at h
    · simp only [newImplGo, sigInstall_not_refused sys s.as_raw (f s) hr] at h
      exact ih _ _ _ _ (rawsNodup_insertReplace stash s _ hnd) h

theorem newImplGo_stash_not_refused (f : SignalKind → Handler)
    (sigs : List SignalKind) :
    ∀ stash sys g sys', (∀ e ∈ stash, e.1.as_raw ∉ sys.refused) →
      newImplGo f sigs stash sys = (some g, sys') →
      ∀ e ∈ g.stashed_signals, e.1.as_raw ∉ sys'.refused := by
  induction sigs with
  | nil =>
    intro stash sys g sys' hok h
    simp only [newImplGo, Prod.mk.injEq, Option.some.injEq] at h
    rw [← h.1, ← h.2]
    exact hok
  | cons s rest ih =>
    intro stash sys g sys' hok h
    by_cases hr : s.as_raw ∈ sys.refused
    · simp [newImplGo, sigInstall, hr] at h
    · simp only [newImplGo, sigInstall_not_refused sys s.as_raw (f s) hr] at h
      refine ih _ _ _ _ ?_ h
      intro e he
      rcases List.mem_cons.mp he with heq | hmem
      · rw [heq]; exact hr
      · exact hok e (removeKey_subset stash s e hmem)

theorem newImplGo_stash_orig (f : SignalKind → Handler) (sigs : List SignalKind) :
    ∀ stash sys g sys', rawsNodupSK sigs →
      (∀ s ∈ sigs, ∀ e ∈ stash, e.1.as_raw ≠ s.as_raw) →
      newImplGo f sigs stash sys = (some g, sys') →
      ∀ s ∈ sigs, (s, getH sys.table s.as_raw) ∈ g.stashed_signals := by
  induction sigs with
  | nil => intro stash sys g sys' _ _ _ s hs; cases hs
  | cons s0 rest ih =>
    intro stash sys g sys' hnd hdisj h s hs
    have hnd' : rawsNodupSK rest := (List.nodup_cons.mp hnd).2
    have hnotin : s0.as_raw ∉ rest.map SignalKind.as_raw :=
      (List.nodup_cons.mp hnd).1
    by_cases hr : s0.as_raw ∈ sys.refused
    · simp [newImplGo, sigInstall, hr] at h
    · simp only [newImplGo, sigInstall_not_refused sys s0.as_raw (f s0) hr] at h
      rcases List.mem_cons.mp hs with heq | hmem
      · subst heq
        refine newImplGo_mem_stash f rest _ _ _ _ _ _
          (List.mem_cons_self _ _) ?_ h
        intro x hx hcontra
        exact hnotin (List.mem_map.mpr ⟨x, hx, by rw [hcontra]⟩)
      · have hgetH : getH ((s0.as_raw, f s0) :: sys.table) s.as_raw
            = getH sys.table s.as_raw := by
          rw [getH_cons, if_neg]
          intro hcontra
          exact hnotin (List.mem_map.mpr ⟨s, hmem, hcontra⟩)
        have := ih _ _ _ _ hnd' ?_ h s hmem
        · rwa [hgetH] at this
        · intro x hx e he
          rcases List.mem_cons.mp he with heq2 | hmem2
          · rw [heq2]
            intro hcontra
            exact hnotin (List.mem_map.mpr ⟨x, hx, hcontra.symm⟩)
          · exact hdisj x (List.mem_cons_of_mem s0 hx) e
              (removeKey_subset stash s0 e hmem2)

theorem newImplGo_fails (f : SignalKind → Handler) :
    ∀ (pre : List SignalKind) (s : SignalKind) (rest : List SignalKind)
      (stash : List (SignalKind × Handler)) (sys : SigSys),
    (∀ p ∈ pre, p.as_raw ∉ sys.refused) → s.as_raw ∈ sys.refused →
    (newImplGo f (pre ++ s :: rest) stash sys).1 = none := by
  intro pre
  induction pre with
  | nil =>
    intro s rest stash sys _ hs
    simp [newImplGo, sigInstall, hs]
  | cons p0 pre' ih =>
    intro s rest stash sys hpre hs
    have hp0 : p0.as_raw ∉ sys.refused := hpre p0 (List.mem_cons_self _ _)
    simp only [List.cons_append, newImplGo,
      sigInstall_not_refused sys p0.as_raw (f p0) hp0]
    exact ih s rest _ _ (fun p hp => hpre p (List.mem_cons_of_mem _ hp)) hs

theorem newImplGo_getH_const (f : SignalKind → Handler) (hv : Handler)
    (hf : ∀ k, f k = hv) (sigs : List SignalKind) :
    ∀ stash sys n, getH sys.table n = hv →
      getH ((newImplGo f sigs stash sys).2).table n = hv := by
  induction sigs with
  | nil => intro stash sys n h; exact h
  | cons s rest ih =>
    intro stash sys n h
    by_cases hr : s.as_raw ∈ sys.refused
    · simpa [newImplGo, sigInstall, hr] using h
    · simp only [newImplGo, sigInstall_not_refused sys s.as_raw (f s) hr]
      apply ih
      rw [getH_cons]
      by_cases hn : n = s.as_raw
      · rw [if_pos hn, hf]
      · rw [if_neg hn]; exact h

theorem newImplGo_no_rollback (f : SignalKind → Handler) (hv : Handler)
    (hf : ∀ k, f k = hv) :
    ∀ (pre : List SignalKind) (s : SignalKind) (rest : List SignalKind)
      (stash : List (SignalKind × Handler)) (sys : SigSys),
    (∀ p ∈ pre, p.as_raw ∉ sys.refused) → s.as_raw ∈ sys.refused →
    ∀ p ∈ pre,
      getH ((newImplGo f (pre ++ s :: rest) stash sys).2).table p.as_raw
        = hv := by
  intro pre
  induction pre with
  | nil => intro s rest stash sys _ _ p hp; cases hp
  | cons p0 pre' ih =>
    intro s rest stash sys hpre hs p hp
    have hp0 : p0.as_raw ∉ sys.refused := hpre p0 (List.mem_cons_self _ _)
    simp only [List.cons_append, newImplGo,
      sigInstall_not_refused sys p0.as_raw (f p0) hp0]
    rcases List.mem_cons.mp hp with heq | hmem
    · subst heq
      apply newImplGo_getH_const f hv hf
      rw [getH_cons, if_pos rfl, hf]
    · refine ih s rest _ _ ?_ ?_ p hmem
      · intro q hq
        exact hpre q (List.mem_cons_of_mem _ hq)
      · exact hs

theorem newImplGo_stash_const (f : SignalKind → Handler) (hv : Handler)
    (hf : ∀ k, f k = hv) (s : SignalKind) :
    ∀ (sigs : List SignalKind) (stash : List (SignalKind × Handler))
      (sys : SigSys) (g : SignalGuard) (sys' : SigSys),
    newImplGo f sigs stash sys = (some g, sys') →
    s ∈ sigs → getH sys.table s.as_raw = hv →
    (s, hv) ∈ g.stashed_signals := by
  intro sigs
  induction sigs with
  | nil => intro stash sys g sys' _ hs _; cases hs
  | cons s0 rest ih =>
    intro stash sys g sys' h hs htab
    by_cases hr : s0.as_raw ∈ sys.refused
    · simp [newImplGo, sigInstall, hr] at h
    · simp only [newImplGo, sigInstall_not_refused sys s0.as_raw (f s0) hr] at h
      rcases List.mem_cons.mp hs with heq | hmem
      · subst heq
        by_cases hsr : s ∈ rest
        · refine ih _ _ _ _ h hsr ?_
          rw [hf, getH_cons, if_pos rfl]
        · refine newImplGo_mem_stash f rest _ _ _ _ s hv ?_ ?_ h
          · rw [htab]
            exact List.mem_cons_self _ _
          · intro x hx hcontra
            exact hsr (hcontra ▸ hx)
      · refine ih _ _ _ _ h hmem ?_
        rw [hf, getH_cons]
        by_cases hn : s.as_raw = s0.as_raw
        · rw [if_pos hn]
        · rw [if_neg hn]; exact htab

theorem newImplGo_dup_stash (f : SignalKind → Handler) (hv : Handler)
    (hf : ∀ k, f k = hv) (s : SignalKind) (l2 : List SignalKind)
    (hmem : s ∈ l2) :
    ∀ (l1 : List SignalKind) (stash : List (SignalKind × Handler))
      (sys : SigSys) (g : SignalGuard) (sys' : SigSys),
    newImplGo f (l1 ++ s :: l2) stash sys = (some g, sys') →
    (s, hv) ∈ g.stashed_signals := by
  intro l1
  induction l1 with
  | nil =>
    intro stash sys g sys' h
    simp only [List.nil_append] at h
    by_cases hr : s.as_raw ∈ sys.refused
    · simp [newImplGo, sigInstall, hr] at h
    · simp only [newImplGo, sigInstall_not_refused sys s.as_raw (f s) hr] at h
      refine newImplGo_stash_const f hv hf s l2 _ _ _ _ h hmem ?_
      rw [hf, getH_cons, if_pos rfl]
  | cons x l1' ih =>
    intro stash sys g sys' h
    simp only [List.cons_append] at h
    by_cases hr : x.as_raw ∈ sys.refused
    · simp [newImplGo, sigInstall, hr] at h
    · simp only [newImplGo, sigInstall_not_refused sys x.as_raw (f x) hr] at h
      exact ih _ _ _ _ h

theorem ignore_eq (sigs : List SignalKind) (sys : SigSys) :
    ignore sigs sys = newImplGo (fun _ => Handler.ign) sigs [] sys := rfl

theorem default_eq (sigs : List SignalKind) (sys : SigSys) :
    SignalGuard.default sigs sys
      = newImplGo (fun _ => Handler.dfl) sigs [] sys := rfl

end SignalGuard

theorem rawsNodup_mem_unique {m : List (SignalKind × Handler)}
    (hnd : rawsNodup m) {k : SignalKind} {v w : Handler}
    (hv2 : (k, v) ∈ m) (hw : (k, w) ∈ m) : v = w := by
  induction m with
  | nil => cases hv2
  | cons e rest ih =>
    unfold rawsNodup at hnd
    rw [List.map_cons] at hnd
    have h0 := List.nodup_cons.mp hnd
    rcases List.mem_cons.mp hv2 with h1 | h1 <;>
      rcases List.mem_cons.mp hw with h2 | h2
    · have h3 : (k, v) = (k, w) := h1.trans h2.symm
      simpa using h3
    · exfalso
      apply h0.1
      exact List.mem_map.mpr ⟨(k, w), h2, by rw [← h1]⟩
    · exfalso
      apply h0.1
      exact List.mem_map.mpr ⟨(k, v), h1, by rw [← h2]⟩
    · exact ih h0.2 h1 h2

theorem newImplGo_restore_spec (f : SignalKind → Handler) (sys : SigSys)
    (sigs : List SignalKind) (g : SignalGuard) (sys' : SigSys)
    (h : SignalGuard.newImplGo f sigs [] sys = (some g, sys')) :
    (∀ e ∈ g.stashed_signals,
       getH ((g.drop) sys').table e.1.as_raw = e.2) ∧
    (rawsNodupSK sigs →
       ∀ s ∈ sigs,
         getH ((g.drop) sys').table s.as_raw = getH sys.table s.as_raw) := by
  have hnd : rawsNodup g.stashed_signals :=
    SignalGuard.newImplGo_stash_nodup _ sigs [] sys g sys'
      (by simp [rawsNodup]) h
  have hnr : ∀ e ∈ g.stashed_signals, e.1.as_raw ∉ sys'.refused :=
    SignalGuard.newImplGo_stash_not_refused _ sigs [] sys g sys'
      (by intro e he; cases he) h
  have p1 : ∀ e ∈ g.stashed_signals,
      getH ((g.drop) sys').table e.1.as_raw = e.2 := by
    intro e he
    exact restoreAll_getH_mem g.stashed_signals sys' e.1 e.2 hnd
      (by rw [Prod.mk.eta]; exact he) (hnr e he)
  refine ⟨p1, ?_⟩
  intro hnds s hs
  have horig := SignalGuard.newImplGo_stash_orig _ sigs [] sys g sys' hnds
    (by intro x hx e he; cases he) h s hs
  exact p1 (s, getH sys.table s.as_raw) horig

theorem newImplGo_dup_spec (f : SignalKind → Handler) (hv : Handler)
    (hf : ∀ k, f k = hv) (sys : SigSys) (l1 l2 : List SignalKind)
    (s : SignalKind) (g : SignalGuard) (sys' : SigSys) (hmem : s ∈ l2)
    (h : SignalGuard.newImplGo f (l1 ++ s :: l2) [] sys = (some g, sys')) :
    sys'.installs.length = sys.installs.length + (l1 ++ s :: l2).length ∧
    (s, hv) ∈ g.stashed_signals ∧
    (∀ v, (s, v) ∈ g.stashed_signals → v = hv) ∧
    getH ((g.drop) sys').table s.as_raw = hv ∧
    (getH sys.table s.as_raw ≠ hv →
       getH ((g.drop) sys').table s.as_raw ≠ getH sys.table s.as_raw) := by
  have hlen := SignalGuard.newImplGo_installs f _ _ _ _ _ h
  have hstash := SignalGuard.newImplGo_dup_stash f hv hf s l2 hmem l1 [] sys
    g sys' h
  have hnd : rawsNodup g.stashed_signals :=
    SignalGuard.newImplGo_stash_nodup f _ _ _ _ _ (by simp [rawsNodup]) h
  have hnr : ∀ e ∈ g.stashed_signals, e.1.as_raw ∉ sys'.refused :=
    SignalGuard.newImplGo_stash_not_refused f _ _ _ _ _
      (by intro e he; cases he) h
  have hdrop : getH ((g.drop) sys').table s.as_raw = hv :=
    restoreAll_getH_mem g.stashed_signals sys' s hv hnd hstash
      (hnr (s, hv) hstash)
  refine ⟨hlen, hstash, ?_, hdrop, ?_⟩
  · intro v hvm
    exact rawsNodup_mem_unique hnd hvm hstash
  · intro hne
    rw [hdrop]
    exact fun hc => hne hc.symm

/-- Claim C2: for every `SignalGuard` successfully constructed by
`ignore` or by `default`, dropping the guard reinstalls, for each signal
it stashed, exactly the previous disposition stored at installation time
(the loop of `drop` is a total function, so reinstall failures are
discarded, never propagated); for an input set without duplicate signal
numbers this restores each signal to its pre-construction disposition,
and in particular `ignore` over the single signal `interrupt` followed
by `drop` restores the disposition active for `interrupt` immediately
before `ignore` was called. -/
theorem C2_drop_restores_stashed :
    ∀ (sys : SigSys) (sigs : List SignalKind) (g : SignalGuard) (sys' : SigSys),
    (SignalGuard.ignore sigs sys = (some g, sys') ∨
     SignalGuard.default sigs sys = (some g, sys')) →
    (∀ e ∈ g.stashed_signals,
       getH ((g.drop) sys').table e.1.as_raw = e.2) ∧
    (rawsNodupSK sigs →
       ∀ s ∈ sigs,
         getH ((g.drop) sys').table s.as_raw = getH sys.table s.as_raw) ∧
    (sigs = [SignalKind.int] →
       getH ((g.drop) sys').table SignalKind.int.as_raw
         = getH sys.table SignalKind.int.as_raw) := by
  intro sys sigs g sys' h
  have hspec : (∀ e ∈ g.stashed_signals,
      getH ((g.drop) sys').table e.1.as_raw = e.2) ∧
      (rawsNodupSK sigs →
        ∀ s ∈ sigs,
          getH ((g.drop) sys').table s.as_raw = getH sys.table s.as_raw) := by
    rcases h with h | h
    · rw [SignalGuard.ignore_eq] at h
      exact newImplGo_restore_spec _ sys sigs g sys' h
    · rw [SignalGuard.default_eq] at h
      exact newImplGo_restore_spec _ sys sigs g sys' h
  refine ⟨hspec.1, hspec.2, ?_⟩
  intro heq
  subst heq
  exact hspec.2 (by simp [rawsNodupSK]) SignalKind.int
    (List.mem_cons_self _ _)

/-- Witness for C2 at concrete states, for both constructors: the table
maps `SIGINT` (2) to a custom handler, `ignore [int]` (resp.
`default [int]`) overrides it, and drop restores it. -/
theorem C2_drop_restores_stashed_witness :
    (getH ((SignalGuard.drop ⟨[(SignalKind.int, Handler.custom 5)]⟩)
        ⟨[(2, Handler.ign), (2, Handler.custom 5)], [], [(2, Handler.ign)]⟩).table
      SignalKind.int.as_raw
    = getH (SigSys.mk [(2, Handler.custom 5)] [] []).table
        SignalKind.int.as_raw) ∧
    (getH ((SignalGuard.drop ⟨[(SignalKind.int, Handler.custom 5)]⟩)
        ⟨[(2, Handler.dfl), (2, Handler.custom 5)], [], [(2, Handler.dfl)]⟩).table
      SignalKind.int.as_raw
    = getH (SigSys.mk [(2, Handler.custom 5)] [] []).table
        SignalKind.int.as_raw) := by
  constructor
  · exact (C2_drop_restores_stashed ⟨[(2, Handler.custom 5)], [], []⟩
      [SignalKind.int] ⟨[(SignalKind.int, Handler.custom 5)]⟩
      ⟨[(2, Handler.ign), (2, Handler.custom 5)], [], [(2, Handler.ign)]⟩
      (Or.inl (by decide))).2.2 rfl
  · exact (C2_drop_restores_stashed ⟨[(2, Handler.custom 5)], [], []⟩
      [SignalKind.int] ⟨[(SignalKind.int, Handler.custom 5)]⟩
      ⟨[(2, Handler.dfl), (2, Handler.custom 5)], [], [(2, Handler.dfl)]⟩
      (Or.inr (by decide))).2.2 rfl

/-- Claim C3: if installing the new disposition is refused for some
signal in the input, construction of the guard — by `ignore` or by
`default` — as a whole fails at construction (returns `none`), and in
either case the dispositions of the signals already changed earlier in
the same call are left at the guard's handler (`SIG_IGN` for `ignore`,
`SIG_DFL` for `default`) — they are not rolled back. -/
theorem C3_install_failure_fails_closed :
    ∀ (sys : SigSys) (pre rest : List SignalKind) (s : SignalKind),
    (∀ p ∈ pre, p.as_raw ∉ sys.refused) → s.as_raw ∈ sys.refused →
    (SignalGuard.ignore (pre ++ s :: rest) sys).1 = none ∧
    (SignalGuard.default (pre ++ s :: rest) sys).1 = none ∧
    (∀ p ∈ pre,
       getH ((SignalGuard.ignore (pre ++ s :: rest) sys).2).table p.as_raw
         = Handler.ign) ∧
    (∀ p ∈ pre,
       getH ((SignalGuard.default (pre ++ s :: rest) sys).2).table p.as_raw
         = Handler.dfl) := by
  intro sys pre rest s hpre hs
  rw [SignalGuard.ignore_eq, SignalGuard.default_eq]
  exact ⟨SignalGuard.newImplGo_fails _ pre s rest [] sys hpre hs,
    SignalGuard.newImplGo_fails _ pre s rest [] sys hpre hs,
    SignalGuard.newImplGo_no_rollback _ Handler.ign (fun _ => rfl)
      pre s rest [] sys hpre hs,
    SignalGuard.newImplGo_no_rollback _ Handler.dfl (fun _ => rfl)
      pre s rest [] sys hpre hs⟩

/-- Witness for C3: with `SIGKILL` (9) refused by the platform,
`ignore [int, kill]` and `default [int, kill]` both fail and leave
`SIGINT` set to the respective guard handler. -/
theorem C3_install_failure_fails_closed_witness :
    (SignalGuard.ignore [SignalKind.int, SignalKind.kill]
      ⟨[], [9], []⟩).1 = none ∧
    getH ((SignalGuard.ignore [SignalKind.int, SignalKind.kill]
      ⟨[], [9], []⟩).2).table SignalKind.int.as_raw = Handler.ign ∧
    getH ((SignalGuard.default [SignalKind.int, SignalKind.kill]
      ⟨[], [9], []⟩).2).table SignalKind.int.as_raw = Handler.dfl := by
  have h := C3_install_failure_fails_closed ⟨[], [9], []⟩ [SignalKind.int]
    [] SignalKind.kill (by decide) (by decide)
  exact ⟨h.1, h.2.2.1 SignalKind.int (List.mem_cons_self _ _),
    h.2.2.2 SignalKind.int (List.mem_cons_self _ _)⟩

/-- Claim C10: whenever the same signal `s` occurs more than once in the
iterator passed to `SignalGuard::ignore` or `SignalGuard::default`
(written as any list `l1 ++ s :: l2` with `s ∈ l2`, covering arbitrary
and non-adjacent repetitions), the OS install call is performed once per
occurrence (`installs` grows by the list's length), the `HashMap` stash
keeps only the disposition reported by the last occurrence's install —
which is the guard's own newly-installed handler (`SIG_IGN` resp.
`SIG_DFL`), not the pre-guard disposition — and dropping the guard
therefore leaves that signal's disposition set to the guard's handler
instead of restoring the disposition active before construction. -/
theorem C10_duplicate_signal_stash :
    ∀ (sys : SigSys) (l1 l2 : List SignalKind) (s : SignalKind)
      (g : SignalGuard) (sys' : SigSys),
    s ∈ l2 →
    (SignalGuard.ignore (l1 ++ s :: l2) sys = (some g, sys') →
       sys'.installs.length = sys.installs.length + (l1 ++ s :: l2).length ∧
       (s, Handler.ign) ∈ g.stashed_signals ∧
       (∀ v, (s, v) ∈ g.stashed_signals → v = Handler.ign) ∧
       getH ((g.drop) sys').table s.as_raw = Handler.ign ∧
       (getH sys.table s.as_raw ≠ Handler.ign →
          getH ((g.drop) sys').table s.as_raw
            ≠ getH sys.table s.as_raw)) ∧
    (SignalGuard.default (l1 ++ s :: l2) sys = (some g, sys') →
       sys'.installs.length = sys.installs.length + (l1 ++ s :: l2).length ∧
       (s, Handler.dfl) ∈ g.stashed_signals ∧
       (∀ v, (s, v) ∈ g.stashed_signals → v = Handler.dfl) ∧
       getH ((g.drop) sys').table s.as_raw = Handler.dfl ∧
       (getH sys.table s.as_raw ≠ Handler.dfl →
          getH ((g.drop) sys').table s.as_raw
            ≠ getH sys.table s.as_raw)) := by
  intro sys l1 l2 s g sys' hmem
  constructor
  · intro h
    rw [SignalGuard.ignore_eq] at h
    exact newImplGo_dup_spec _ Handler.ign (fun _ => rfl) sys l1 l2 s g sys'
      hmem h
  · intro h
    rw [SignalGuard.default_eq] at h
    exact newImplGo_dup_spec _ Handler.dfl (fun _ => rfl) sys l1 l2 s g sys'
      hmem h

/-- Witness for C10: `SIGINT` repeated non-adjacently in
`ignore [int, term, int]` over a table holding a custom handler; the
stash keeps ignore for `SIGINT`, and after drop the table does not hold
the custom handler any more. -/
theorem C10_duplicate_signal_stash_witness :
    (SignalKind.int, Handler.ign) ∈
      (SignalGuard.mk [(SignalKind.int, Handler.ign),
        (SignalKind.term, Handler.dfl)]).stashed_signals ∧
    getH ((SignalGuard.drop
        ⟨[(SignalKind.int, Handler.ign), (SignalKind.term, Handler.dfl)]⟩)
        ⟨[(2, Handler.ign), (15, Handler.ign), (2, Handler.ign),
          (2, Handler.custom 5)], [],
         [(2, Handler.ign), (15, Handler.ign), (2, Handler.ign)]⟩).table
      SignalKind.int.as_raw
      ≠ getH (SigSys.mk [(2, Handler.custom 5)] [] []).table
          SignalKind.int.as_raw := by
  have h := (C10_duplicate_signal_stash ⟨[(2, Handler.custom 5)], [], []⟩
    [] [SignalKind.term, SignalKind.int] SignalKind.int
    ⟨[(SignalKind.int, Handler.ign), (SignalKind.term, Handler.dfl)]⟩
    ⟨[(2, Handler.ign), (15, Handler.ign), (2, Handler.ign),
      (2, Handler.custom 5)], [],
     [(2, Handler.ign), (15, Handler.ign), (2, Handler.ign)]⟩
    (by decide)).1 (by decide)
  exact ⟨h.2.1, h.2.2.2.2 (by decide)⟩

/-- Claim C8 counterexample: the raw-integer escape hatch
(`From<libc::c_int>`) performs no validation — `SignalKind::from(-1)` is
constructible, wraps `-1`, and `-1` matches no named (validated) signal
identifier, so not every constructible `SignalKind` wraps a validated
signal identifier. -/
theorem C8_raw_escape_hatch_counterexample :
    SignalKind.fromRaw (-1) ∉ namedSignals ∧
    (SignalKind.fromRaw (-1)).as_raw = -1 ∧
    ∀ s ∈ namedSignals, (SignalKind.fromRaw (-1)).as_raw ≠ s.as_raw := by
  decide

/-- Claim C8 as amended: the named constructors are closed over a fixed
set of distinct, valid platform signal numbers, while the raw-integer
escape hatch wraps the given integer directly, without validation. -/
theorem C8_construction_amended :
    (∀ s ∈ namedSignals, 0 < s.as_raw ∧ s.as_raw < 32) ∧
    (namedSignals.map SignalKind.as_raw).Nodup ∧
    (∀ n : Int, (SignalKind.fromRaw n).as_raw = n) :=
  ⟨by decide, by decide, fun _ => rfl⟩

/-- Witness for the amended C8 at the `interrupt` constructor. -/
theorem C8_construction_amended_witness :
    0 < SignalKind.int.as_raw ∧ SignalKind.int.as_raw < 32 :=
  C8_construction_amended.1 SignalKind.int (by decide)

/-- Claim C9: two `SignalKind` values are equal iff their native
identifiers are equal, regardless of construction path; `as_raw` returns
exactly the wrapped identifier, and converting a value's raw identifier
back through the raw escape hatch yields an equal value (so a named
constructor and the raw conversion of the same number coincide). -/
theorem C9_equality_over_raw :
    ∀ a b : SignalKind,
    (a = b ↔ a.as_raw = b.as_raw) ∧
    (∀ n : Int, (SignalKind.fromRaw n).as_raw = n) ∧
    (∀ k : SignalKind, SignalKind.fromRaw k.as_raw = k) := by
  intro a b
  refine ⟨⟨fun h => by rw [h], fun h => SignalKind.as_raw_inj h⟩,
    fun _ => rfl, fun k => rfl⟩

/-- Witness for C9: the named `interrupt` constructor equals the raw
conversion of its signal number. -/
theorem C9_equality_over_raw_witness :
    SignalKind.fromRaw SignalKind.int.as_raw = SignalKind.int :=
  (C9_equality_over_raw SignalKind.int SignalKind.int).2.2 SignalKind.int

/-- Claim C7: `exec_replace` returns a value only in the failure case —
on unix the return equals the failure of the `exec` primitive; on the
emulated platform, when handler installation, spawn and wait all
succeed, the call terminates the process with the child's exit status
(fallback failure status `1` when the child has no exit code) after
installing the interrupt-suppressing handler, spawning and waiting, in
that order, and any returned value corresponds to a failure of one of
those three steps. -/
theorem C7_exec_replace_only_returns_failure :
    ∀ (sys : ProcSys) (r : Option IoErrorKind),
    (∀ e, execReplaceUnix r = ExecOutcome.returned e → r = some e) ∧
    (sys.ctrlOk = true → ∀ c, sys.spawn = Except.ok () →
      sys.wait = Except.ok c →
      execReplaceEmulated sys
        = (ExecOutcome.exited (c.getD 1),
           [PEv.ctrlAttempt, PEv.spawnAttempt, PEv.waitAttempt])) ∧
    (∀ e, (execReplaceEmulated sys).1 = ExecOutcome.returned e →
      sys.ctrlOk = false ∨ sys.spawn = Except.error e ∨
        sys.wait = Except.error e) ∧
    ((execReplaceEmulated sys).1 ≠ ExecOutcome.replaced) := by
  intro sys r
  obtain ⟨ctrl, spawn, wait⟩ := sys
  refine ⟨?_, ?_, ?_, ?_⟩
  · intro e h
    cases r with
    | none => simp [execReplaceUnix] at h
    | some x =>
      simp only [execReplaceUnix, ExecOutcome.returned.injEq] at h
      rw [h]
  · intro hctrl c hspawn hwait
    simp only at hctrl hspawn hwait
    subst hctrl hspawn hwait
    simp [execReplaceEmulated]
  · intro e h
    cases ctrl with
    | false => exact Or.inl rfl
    | true =>
      cases spawn with
      | error e2 =>
        simp [execReplaceEmulated] at h
        subst h
        exact Or.inr (Or.inl rfl)
      | ok u =>
        cases u
        cases wait with
        | error e3 =>
          simp [execReplaceEmulated] at h
          subst h
          exact Or.inr (Or.inr rfl)
        | ok st =>
          simp [execReplaceEmulated] at h
  · cases ctrl with
    | false => simp [execReplaceEmulated]
    | true =>
      cases spawn with
      | error e2 => simp [execReplaceEmulated]
      | ok u =>
        cases u
        cases wait with
        | error e3 => simp [execReplaceEmulated]
        | ok st => simp [execReplaceEmulated]

/-- Claim C6: `PathExt::mkdir` treats an already-existing target as
success — when the underlying directory-creation call (`create_dir` or
`create_dir_all` as selected by the options) fails with `AlreadyExists`,
the wrapper returns `Ok(())` — and provisioning is therefore idempotent:
repeating a successful `mkdir`, and repeating a successful `touch`, on
the same path succeeds (leaving the state unchanged). -/
theorem C6_mkdir_idempotent :
    ∀ (fs : FSState) (p : FPath) (opts : MkdirOptions),
    (∀ fsA, underlyingCreate opts fs p = (.error .alreadyExists, fsA) →
       PathExt.mkdir fs p opts = (.ok (), fsA)) ∧
    (∀ fs1, PathExt.mkdir fs p opts = (.ok (), fs1) →
       PathExt.mkdir fs1 p opts = (.ok (), fs1)) ∧
    (∀ f fs1, PathExt.touch fs p = (.ok f, fs1) →
       PathExt.touch fs1 p = (.ok f, fs1)) := by
  intro fs p opts
  refine ⟨?_, ?_, ?_⟩
  · intro fsA h
    simp [PathExt.mkdir, h]
  · intro fs1 h
    exact mkdir_repeat h
  · intro f fs1 h
    exact touch_repeat h

/-- Witness for C6: `mkdir` on an existing directory maps the underlying
`AlreadyExists` to success, and `touch` on an empty filesystem is
idempotent. -/
theorem C6_mkdir_idempotent_witness :
    PathExt.mkdir ⟨[["d"]], [], [], []⟩ ["d"] MkdirOptions.WithoutParents
      = (.ok (), ⟨[["d"]], [], [], []⟩) ∧
    PathExt.touch ⟨[], [(["f"], 0o666)], [], []⟩ ["f"]
      = (.ok ⟨["f"]⟩, ⟨[], [(["f"], 0o666)], [], []⟩) := by
  constructor
  · exact (C6_mkdir_idempotent ⟨[["d"]], [], [], []⟩ ["d"]
      MkdirOptions.WithoutParents).1 ⟨[["d"]], [], [], []⟩ (by decide)
  · exact (C6_mkdir_idempotent ⟨[], [], [], []⟩ ["f"]
      MkdirOptions.WithParents).2.2 ⟨["f"]⟩ ⟨[], [(["f"], 0o666)], [], []⟩
      (by decide)

/-- Claim C5: provisioning (`touch`) succeeds whether or not the path
already exists — under the implicit openability conditions that no file
blocks the parent chain and the path itself is not a directory — and the
file it opens has permissions matching those of an existing file at the
path when one is present (opening never changes them), else the default
create permissions `0o666`. -/
theorem C5_touch_permissions :
    ∀ (fs : FSState) (p q : FPath),
    parent p = some q → hFA fs.files q = false → isDirL fs.dirs p = false →
    ((PathExt.touch fs p).1.isOk = true) ∧
    (∀ m, findMode fs.files p = some m →
       findMode ((PathExt.touch fs p).2).files p = some m) ∧
    (findMode fs.files p = none →
       findMode ((PathExt.touch fs p).2).files p = some 0o666) := by
  intro fs p q hpq hq hdir
  cases p with
  | nil => simp [parent] at hpq
  | cons c q0 =>
    have hq0 : q0 = q := by simpa [parent] using hpq
    subst hq0
    rcases hca : create_dir_all fs q0 with ⟨r2, fsP⟩
    have hl7 := create_dir_all_ok_of_no_file q0 fs hq
    rw [hca] at hl7
    have hPfiles : fsP.files = fs.files := by
      rw [← create_dir_all_files fs q0, hca]
    cases r2 with
    | error e2 => simp at hl7
    | ok u2 =>
      cases u2
      have allP : allDirsL fsP.dirs q0 = true := hl7.2
      have hmk : PathExt.mkdir fs q0 MkdirOptions.WithParents
          = (.ok (), fsP) := by
        simp [PathExt.mkdir, underlyingCreate, hca]
      have hdirP : isDirL fsP.dirs (c :: q0) = false := by
        apply decide_eq_false
        rintro (habs | hmem)
        · exact List.noConfusion habs
        · have hb := create_dir_all_dirs_bound q0 fs (c :: q0)
          rw [hca] at hb
          rcases hb hmem with hin | hle
          · have hcontra : isDirL fs.dirs (c :: q0) = true :=
              decide_eq_true (Or.inr hin)
            rw [hdir] at hcontra
            cases hcontra
          · simp only [List.length_cons] at hle
            omega
      simp only [PathExt.touch, parent]
      rw [hmk]
      dsimp only
      rcases hfm : findMode fs.files (c :: q0) with _ | m
      · have hfmP : findMode fsP.files (c :: q0) = none := by
          rw [hPfiles]; exact hfm
        have hmm : metadataMode fsP (c :: q0) = none := by
          simp [metadataMode, hfmP, hdirP]
        rw [hmm]
        dsimp only
        have hopen : openRW fsP (c :: q0) 0o666
            = (.ok ⟨c :: q0⟩,
               { fsP with files := ((c :: q0), 0o666) :: fsP.files }) := by
          simp only [openRW]
          rw [if_neg (by rw [hdirP]; exact Bool.false_ne_true), hfmP]
          dsimp only [parent]
          rw [if_neg (by rw [hPfiles, hq]; exact Bool.false_ne_true),
            if_pos allP]
        rw [hopen]
        refine ⟨rfl, ?_, ?_⟩
        · intro m hm
          cases hm
        · intro _
          rw [findMode_cons, if_pos rfl]
      · have hfmP : findMode fsP.files (c :: q0) = some m := by
          rw [hPfiles]; exact hfm
        have hmm : metadataMode fsP (c :: q0) = some m := by
          simp [metadataMode, hfmP]
        rw [hmm]
        dsimp only
        have hopen : openRW fsP (c :: q0) (Nat.land m 0o666)
            = (.ok ⟨c :: q0⟩, fsP) := by
          simp only [openRW]
          rw [if_neg (by rw [hdirP]; exact Bool.false_ne_true), hfmP]
        rw [hopen]
        refine ⟨rfl, ?_, ?_⟩
        · intro m2 hm2
          cases hm2
          exact hfmP
        · intro hnone
          cases hnone

/-- Witness for C5: touching a fresh single-component path on an empty
filesystem succeeds and creates the file with mode `0o666`. -/
theorem C5_touch_permissions_witness :
    ((PathExt.touch ⟨[], [], [], []⟩ ["f"]).1.isOk = true) ∧
    findMode ((PathExt.touch ⟨[], [], [], []⟩ ["f"]).2).files ["f"]
      = some 0o666 := by
  have h := C5_touch_permissions ⟨[], [], [], []⟩ ["f"] [] rfl rfl
    (by decide)
  exact ⟨h.1, h.2.2 rfl⟩

/-- Claim C4: both acquisition operations first provision the path with
`touch` and only then request the OS-level advisory lock on the handle
obtained from provisioning: if provisioning fails, its I/O error is
returned unchanged and no lock request is issued (the event trace is
untouched); if provisioning succeeds, the lock request on the provisioned
handle's path is the next event after all provisioning effects (or, in
blocking mode under contention, the call suspends). -/
theorem C4_provision_before_lock :
    ∀ (fs : FSState) (p : FPath) (sb : ShouldBlock),
    (∀ e fs1, PathExt.touch fs p = (.error e, fs1) →
       PathExt.lock fs p sb = .err e fs1 ∧
       PathExt.lock_shared fs p sb = .err e fs1 ∧
       fs1.events = fs.events) ∧
    (∀ f fs1, PathExt.touch fs p = (.ok f, fs1) →
       f = ⟨p⟩ ∧ fs1.events = fs.events ∧
       ((PathExt.lock fs p sb).eventsO
          = some (FsEvent.lockReq p LockMode.exclusive :: fs1.events) ∨
        PathExt.lock fs p sb = .blocked) ∧
       ((PathExt.lock_shared fs p sb).eventsO
          = some (FsEvent.lockReq p LockMode.shared :: fs1.events) ∨
        PathExt.lock_shared fs p sb = .blocked)) := by
  intro fs p sb
  constructor
  · intro e fs1 ht
    have hev := (touch_state fs p).2
    rw [ht] at hev
    refine ⟨?_, ?_, hev⟩
    · simp [PathExt.lock, ht]
    · simp [PathExt.lock_shared, ht]
  · intro f fs1 ht
    have hf := touch_ok_fpath ht
    have hev := (touch_state fs p).2
    rw [ht] at hev
    subst hf
    refine ⟨rfl, hev, ?_, ?_⟩
    · simp only [PathExt.lock, ht]
      cases sb with
      | Yes =>
        dsimp only
        by_cases hin : heldIncompat
            (pushEv fs1 (.lockReq p LockMode.exclusive)) p
            LockMode.exclusive = true
        · right
          simp [blockLockFile, pushEv, heldIncompat] at hin ⊢
          simp [hin]
        · left
          simp [blockLockFile, pushEv, heldIncompat] at hin ⊢
          simp [hin, LockOutcome.eventsO, addLock]
      | No =>
        dsimp only
        left
        by_cases hin : heldIncompat
            (pushEv fs1 (.lockReq p LockMode.exclusive)) p
            LockMode.exclusive = true
        · simp [tryLockFile, pushEv, heldIncompat] at hin ⊢
          simp [hin, LockOutcome.eventsO]
        · simp [tryLockFile, pushEv, heldIncompat] at hin ⊢
          simp [hin, LockOutcome.eventsO, addLock]
    · simp only [PathExt.lock_shared, ht]
      cases sb with
      | Yes =>
        dsimp only
        by_cases hin : heldIncompat
            (pushEv fs1 (.lockReq p LockMode.shared)) p
            LockMode.shared = true
        · right
          simp [blockLockFile, pushEv, heldIncompat] at hin ⊢
          simp [hin]
        · left
          simp [blockLockFile, pushEv, heldIncompat] at hin ⊢
          simp [hin, LockOutcome.eventsO, addLock]
      | No =>
        dsimp only
        left
        by_cases hin : heldIncompat
            (pushEv fs1 (.lockReq p LockMode.shared)) p
            LockMode.shared = true
        · simp [tryLockFile, pushEv, heldIncompat] at hin ⊢
          simp [hin, LockOutcome.eventsO]
        · simp [tryLockFile, pushEv, heldIncompat] at hin ⊢
          simp [hin, LockOutcome.eventsO, addLock]

/-- Witness for C4: with a file blocking the parent chain, `touch` fails
with `NotADirectory` and both lock acquisitions return that error with
no lock request recorded. -/
theorem C4_provision_before_lock_witness :
    PathExt.lock ⟨[], [(["f"], 0o644)], [], []⟩ ["x", "f"] ShouldBlock.No
      = LockOutcome.err IoErrorKind.notADirectory
          ⟨[], [(["f"], 0o644)], [], []⟩ ∧
    (⟨[], [(["f"], 0o644)], [], []⟩ : FSState).events = [] := by
  have h := (C4_provision_before_lock ⟨[], [(["f"], 0o644)], [], []⟩
    ["x", "f"] ShouldBlock.No).1 IoErrorKind.notADirectory
    ⟨[], [(["f"], 0o644)], [], []⟩ (by decide)
  exact ⟨h.1, h.2.2⟩

/-- Claim C1: a non-blocking acquisition (`lock` or `lock_shared` with
`ShouldBlock::No`) on a path whose lock is held incompatibly by another
holder returns an `Err` of kind `WouldBlock` — a dedicated
`io::ErrorKind` distinguishable from generic I/O errors — and never
suspends the calling thread (the outcome is never `blocked`).  The
provisioning step is assumed to succeed, as it does whenever the path is
openable. -/
theorem C1_nonblocking_wouldblock :
    ∀ (fs : FSState) (p : FPath),
    ((PathExt.touch fs p).1.isOk = true) →
    (heldIncompat fs p LockMode.exclusive = true →
       (PathExt.lock fs p ShouldBlock.No).errKind
         = some IoErrorKind.wouldBlock ∧
       PathExt.lock fs p ShouldBlock.No ≠ LockOutcome.blocked) ∧
    (heldIncompat fs p LockMode.shared = true →
       (PathExt.lock_shared fs p ShouldBlock.No).errKind
         = some IoErrorKind.wouldBlock ∧
       PathExt.lock_shared fs p ShouldBlock.No ≠ LockOutcome.blocked) := by
  intro fs p htouch
  rcases ht : PathExt.touch fs p with ⟨rt, fs1⟩
  rw [ht] at htouch
  cases rt with
  | error e => exact Bool.noConfusion htouch
  | ok f =>
    have hfp := touch_ok_fpath ht
    subst hfp
    have hlocks := (touch_state fs p).1
    rw [ht] at hlocks
    constructor
    · intro hin
      have hin1 : heldIncompatL fs1.locks p LockMode.exclusive = true := by
        rw [show fs1.locks = fs.locks from hlocks]
        exact hin
      have hlk : PathExt.lock fs p ShouldBlock.No
          = LockOutcome.err IoErrorKind.wouldBlock
              (pushEv fs1 (FsEvent.lockReq p LockMode.exclusive)) := by
        simp only [PathExt.lock, ht]
        simp [tryLockFile, heldIncompat, pushEv, hin1]
      rw [hlk]
      exact ⟨rfl, fun hcontra => LockOutcome.noConfusion hcontra⟩
    · intro hin
      have hin1 : heldIncompatL fs1.locks p LockMode.shared = true := by
        rw [show fs1.locks = fs.locks from hlocks]
        exact hin
      have hlk : PathExt.lock_shared fs p ShouldBlock.No
          = LockOutcome.err IoErrorKind.wouldBlock
              (pushEv fs1 (FsEvent.lockReq p LockMode.shared)) := by
        simp only [PathExt.lock_shared, ht]
        simp [tryLockFile, heldIncompat, pushEv, hin1]
      rw [hlk]
      exact ⟨rfl, fun hcontra => LockOutcome.noConfusion hcontra⟩

/-- Witness for C1: an exclusive lock held by another holder makes both
non-blocking acquisitions fail with `WouldBlock`. -/
theorem C1_nonblocking_wouldblock_witness :
    (PathExt.lock ⟨[], [(["f"], 0o644)], [(["f"], LockMode.exclusive)], []⟩
        ["f"] ShouldBlock.No).errKind = some IoErrorKind.wouldBlock ∧
    (PathExt.lock_shared
        ⟨[], [(["f"], 0o644)], [(["f"], LockMode.exclusive)], []⟩
        ["f"] ShouldBlock.No).errKind = some IoErrorKind.wouldBlock := by
  have h := C1_nonblocking_wouldblock
    ⟨[], [(["f"], 0o644)], [(["f"], LockMode.exclusive)], []⟩ ["f"]
    (by decide)
  exact ⟨(h.1 (by decide)).1, (h.2 (by decide)).1⟩

/-- Witness for C7: full success with child exit code 7 terminates the
process with status 7 after handler, spawn and wait. -/
theorem C7_exec_replace_only_returns_failure_witness :
    execReplaceEmulated ⟨true, Except.ok (), Except.ok (some 7)⟩
      = (ExecOutcome.exited 7,
         [PEv.ctrlAttempt, PEv.spawnAttempt, PEv.waitAttempt]) := by
  have h := (C7_exec_replace_only_returns_failure
    ⟨true, Except.ok (), Except.ok (some 7)⟩ none).2.1 rfl (some 7) rfl rfl
  simpa using h

end Rustvil
